import Mathlib

/-!
Verification development for `src/nngt/generation/func_connect.cpp`
(namespace `generation` of the AGNet repository).

Shallow embedding conventions:
* `size_t` values are modelled as `ℕ`; the one place where unsigned
  wrap-around matters (`nln - 1` in `_cdistance_rule`) is modelled
  explicitly modulo `2^64`.
* `long` seeds are modelled as `ℤ`.
* A `std::mt19937` generator is modelled abstractly as a deterministic
  stream of raw natural draws (`f : ℕ → ℕ`) together with a position;
  `std::uniform_int_distribution<size_t>(lo, hi)` applied to it consumes
  one raw draw `v` and yields `lo + v % (hi - lo + 1)`.
* `std::unordered_map` used purely for membership is modelled as a
  `Finset` of keys (only `find`, `insert` and `size` are used by the C++).
* Potentially non-terminating C++ loops take explicit fuel and return
  `Option`/`Res` results; fuel exhaustion is `none`/`timeout`.
* Out-of-bounds vector reads (undefined behaviour in C++) surface as the
  dedicated `Res.oob` outcome in the distance-rule model.
-/

namespace FuncConnect

/-- Abstract deterministic pseudo-random generator: a raw stream plus a
position.  Models the per-worker `std::mt19937` instance. -/
structure Rng where
  f : ℕ → ℕ
  pos : ℕ

/-- Consume one raw draw from the generator. -/
def Rng.next (g : Rng) : ℕ × Rng :=
  (g.f g.pos, { g with pos := g.pos + 1 })

/-- `std::uniform_int_distribution<size_t>(lo, hi)` evaluated on one raw
draw: `lo + v % (hi - lo + 1)`. -/
def uniformInt (lo hi : ℕ) (g : Rng) : ℕ × Rng :=
  (lo + (g.next).1 % (hi - lo + 1), (g.next).2)

/-- `_init_seeds`: fills `seeds[i] = msd + i + 1` for `i < omp`. -/
def initSeeds (omp : ℕ) (msd : ℤ) : List ℤ :=
  (List.range omp).map (fun (i : ℕ) => msd + (i : ℤ) + 1)

/-- The generator a worker constructs from its seed
(`std::mt19937 generator_(seeds[omp_get_thread_num()])`), with `mkStream`
the abstract map from a seed to its raw draw stream. -/
def workerRng (mkStream : ℤ → ℕ → ℕ) (seeds : List ℤ) (w : ℕ) : Rng :=
  ⟨mkStream (seeds.getD w 0), 0⟩

/-!
### `_unique_1d` / `_unique_2d`

Both functions run the same single pass over a buffer `a`: starting from
`total_unique = hash_map.size()` and a start index (`0` for the 1-D
variant, `hash_map.size()` for the 2-D variant), each scanned entry that
is not yet in the hash map is inserted and copied down to position
`total_unique`, which is then incremented.  `uniqueAux` is that common
pass, parametrised by the key type; the recursion fuel `n` is always
instantiated with `a.length`, which covers the full index range of the
C++ `for` loop.
-/

/-- One C++ loop iteration per fuel step: at index `i`, read `a[i]`; if
absent from the map, insert it and write it at `a[total_unique]`. -/
def uniqueAux {α : Type} [DecidableEq α] (d : α) :
    ℕ → List α → Finset α → ℕ → ℕ → List α × Finset α × ℕ
  | 0, a, m, u, _ => (a, m, u)
  | n + 1, a, m, u, i =>
      if i < a.length then
        let x := a.getD i d
        if x ∈ m then uniqueAux d n a m u (i + 1)
        else uniqueAux d n (a.set u x) (insert x m) (u + 1) (i + 1)
      else (a, m, u)

/-- `_unique_1d`: scans the whole buffer from index `0`. Returns the
mutated buffer, the mutated hash map and `total_unique`. -/
def unique1d (a : List ℕ) (m : Finset ℕ) : List ℕ × Finset ℕ × ℕ :=
  uniqueAux 0 a.length a m m.card 0

/-- `_unique_2d`: the two parallel edge vectors `a[0]`, `a[1]` are
modelled as one list of pairs; the scan starts at `hash_map.size()`. -/
def unique2d (a : List (ℕ × ℕ)) (m : Finset (ℕ × ℕ)) :
    List (ℕ × ℕ) × Finset (ℕ × ℕ) × ℕ :=
  uniqueAux (0, 0) a.length a m m.card m.card

/-!
### `_gen_edge_complement`

For one source node `other_end` with requested degree `degree`:
* `existing_edges` arrives as a POINTER to the edge structure, a
  `std::vector<std::vector<size_t>>` laid out as `[sources, targets]`.
  The loop bound `num_old_edges = existing_edges[0].size()` subscripts
  the pointer, so `existing_edges[0]` is the pointed-to OUTER vector
  and the bound is the number of inner vectors, not the edge count: the
  seeding loop inspects only entries `0 .. existing.length - 1` of the
  sources vector.  `existing_edges->at(0)[i]` / `->at(1)[i]` use
  unchecked `operator[]` on the inner vectors (and `at(1)` throws on a
  one-element outer vector); any such read past an inner vector's end
  aborts the run, modelled as `none`;
* the result buffer is seeded with the targets of the inspected entries
  whose source is `other_end` (`ecurrent` of them), then resized to
  `ecurrent + degree` (the fresh slots are value-initialised to `0`);
* `target_degree = ecurrent + degree`;
* the outer `while (ecurrent < target_degree)` loop fills the slots
  `ecurrent .. target_degree - 1` with uniform draws over
  `[min nodes, max nodes]`, rejecting draws equal to `other_end`, then
  either declares them all kept (multigraph) or recomputes `ecurrent`
  via `_unique_1d` with a hash map that persists across iterations.

The C++ also contains `assert(target_degree == degree)`; the executable
model below follows the `NDEBUG` (assert disabled) semantics, and the
assert condition is exposed separately as `gecAssertHolds`.
-/

/-- One iteration of the seeding loop of `_gen_edge_complement` at
index `i`: read `existing_edges->at(0)[i]` (the `i`-th source); when it
equals `other_end`, append `existing_edges->at(1)[i]` (the `i`-th
target) to the result.  A read past an inner vector's end is
out-of-bounds, modelled as `none` (absorbing). -/
def seedStep (existing : List (List ℕ)) (otherEnd : ℕ) :
    Option (List ℕ) → ℕ → Option (List ℕ)
  | none, _ => none
  | some l, i =>
      match (existing.getD 0 [])[i]? with
      | none => none
      | some s =>
          if s = otherEnd then
            match (existing.getD 1 [])[i]? with
            | none => none
            | some t => some (l ++ [t])
          else some l

/-- The seeding loop of `_gen_edge_complement`.  Its bound
`num_old_edges = existing_edges[0].size()` subscripts the POINTER
`existing_edges`, so it is the size of the outer vector
(`existing.length`, i.e. `2` under the `[sources, targets]` layout):
only the first `existing.length` entries of the sources vector are
inspected, and inspecting an entry past the sources (or matching
targets) vector's end is an out-of-bounds read (`none`). -/
def seedTargets (existing : List (List ℕ)) (otherEnd : ℕ) :
    Option (List ℕ) :=
  (List.range existing.length).foldl (seedStep existing otherEnd) (some [])

/-- The condition of `assert(target_degree == degree)` in
`_gen_edge_complement` (with `target_degree = ecurrent + degree` where
`ecurrent` is the seeded-prefix length); `none` when the seeding loop
itself reads out of bounds, so the assert is never reached. -/
def gecAssertHolds (existing : List (List ℕ)) (otherEnd degree : ℕ) :
    Option Bool :=
  (seedTargets existing otherEnd).map
    (fun pre => decide (pre.length + degree = degree))

/-- The inner `while (j < remaining)` loop: fills `need` slots starting
at position `pos` with draws from `[lo, hi]`, rejecting draws equal to
`otherEnd`.  One fuel unit per draw attempt. -/
def fillSlots (lo hi otherEnd : ℕ) (buf : List ℕ) (pos need : ℕ)
    (g : Rng) (fuel : ℕ) : Option (List ℕ × Rng) :=
  match need, fuel with
  | 0, _ => some (buf, g)
  | _ + 1, 0 => none
  | n + 1, f + 1 =>
      if (uniformInt lo hi g).1 = otherEnd then
        fillSlots lo hi otherEnd buf pos (n + 1) (uniformInt lo hi g).2 f
      else
        fillSlots lo hi otherEnd (buf.set pos (uniformInt lo hi g).1) (pos + 1)
          n (uniformInt lo hi g).2 f

/-- The outer `while (ecurrent < target_degree)` loop of
`_gen_edge_complement`; `fuel` bounds both loop rounds and per-round
draw attempts.  Each round fills slots `ecur .. target - 1`
(`remaining = target - ecur` of them), then sets
`ecur := multigraph ? target : _unique_1d(buf, hash_map)`. -/
def gecLoop (lo hi otherEnd target : ℕ) (multigraph : Bool) :
    ℕ → List ℕ → ℕ → Finset ℕ → Rng → Option (List ℕ × Rng)
  | fuel, buf, ecur, m, g =>
    if ecur < target then
      match fuel with
      | 0 => none
      | f + 1 =>
          match fillSlots lo hi otherEnd buf ecur (target - ecur) g (f + 1) with
          | none => none
          | some (buf', g') =>
              if multigraph then
                gecLoop lo hi otherEnd target multigraph f buf' target m g'
              else
                gecLoop lo hi otherEnd target multigraph f (unique1d buf' m).1
                  (unique1d buf' m).2.2 (unique1d buf' m).2.1 g'
    else some (buf, g)

/-- `_gen_edge_complement`: returns the result buffer and the advanced
generator, or `none` when the seeding loop reads out of bounds, when
the fuel runs out (the C++ loops forever in the situations this
models), or when `nodes` is empty (`std::min_element` /
`std::max_element` on an empty range). -/
def genEdgeComplement (g : Rng) (nodes : List ℕ) (otherEnd degree : ℕ)
    (existing : List (List ℕ)) (multigraph : Bool) (fuel : ℕ) :
    Option (List ℕ × Rng) :=
  match nodes.min?, nodes.max? with
  | some lo, some hi =>
      match seedTargets existing otherEnd with
      | none => none
      | some pre =>
          gecLoop lo hi otherEnd (pre.length + degree) multigraph fuel
            (pre ++ List.replicate degree 0) pre.length ∅ g
  | _, _ => none

/-!
### `_gen_edges`

The driving loop: secondary seeds via `_init_seeds`, the cumulated
degree sums, then an OpenMP parallel region in which each worker owns a
`schedule(static)` contiguous chunk of the node range
`0 .. first_nodes.size() - 1` (note the C++ uses the loop index `node`
itself as the source id; `first_nodes` only contributes its length).
Worker `w` seeds its own generator from `seeds[w]` and, for each of its
nodes in ascending order, calls `_gen_edge_complement` and writes the
block `ia_edges[2*(idx_start + j) + idx] = node`,
`ia_edges[2*(idx_start + j) + 1 - idx] = res_tmp[j]` for
`j < degrees[node]`, with `idx_start = cum_degrees[node] - degrees[node]`.

The shared output array is modelled as a function `ℕ → ℕ` built by
folding the write events of each worker; the order in which workers are
folded is a parameter (`order`) standing for the OS scheduling of the
parallel region, so that schedule independence is a provable statement
rather than a modelling assumption.
-/

/-- Start of worker `w`'s contiguous `schedule(static)` chunk over `n`
iterations split across `w₀` workers (the usual OpenMP static split:
the first `n % w₀` workers get one extra iteration). -/
def chunkStart (w₀ n w : ℕ) : ℕ :=
  w * (n / w₀) + min w (n % w₀)

/-- Length of worker `w`'s static chunk. -/
def chunkLen (w₀ n w : ℕ) : ℕ :=
  n / w₀ + (if w < n % w₀ then 1 else 0)

/-- The node indices owned by worker `w`. -/
def chunkNodes (w₀ n w : ℕ) : List ℕ :=
  (List.range (chunkLen w₀ n w)).map (fun j => chunkStart w₀ n w + j)

/-- `cum_degrees[node] - degrees[node]`: the edge offset at which node
`node`'s block begins (sum of the degrees of the preceding nodes). -/
def degStart (degrees : List ℕ) (node : ℕ) : ℕ :=
  (degrees.take node).sum

/-- The `(position, value)` write events node `node` contributes to
`ia_edges`: for `j < degrees[node]`, position `2*(idx_start + j) + idx`
receives `node` and position `2*(idx_start + j) + 1 - idx` receives
`res_tmp[j]`. -/
def blockEvents (idx : ℕ) (degrees : List ℕ) (node : ℕ) (res : List ℕ) :
    List (ℕ × ℕ) :=
  (List.range (degrees.getD node 0)).flatMap (fun j =>
    [(2 * (degStart degrees node + j) + idx, node),
     (2 * (degStart degrees node + j) + 1 - idx, res.getD j 0)])

/-- Run `_gen_edge_complement` for each node of a worker's chunk in
ascending order, threading the worker's generator through the calls. -/
def runNodes (secondNodes : List ℕ) (degrees : List ℕ)
    (existing : List (List ℕ)) (multigraph : Bool) (fuel : ℕ) :
    List ℕ → Rng → Option (List (ℕ × List ℕ) × Rng)
  | [], g => some ([], g)
  | n :: ns, g =>
      match genEdgeComplement g secondNodes n (degrees.getD n 0) existing
          multigraph fuel with
      | none => none
      | some (res, g') =>
          match runNodes secondNodes degrees existing multigraph fuel ns g' with
          | none => none
          | some (rest, g'') => some ((n, res) :: rest, g'')

/-- All write events produced by worker `w` of `_gen_edges` (or `none`
when one of its `_gen_edge_complement` calls diverges). -/
def workerEvents (secondNodes : List ℕ) (degrees : List ℕ)
    (existing : List (List ℕ)) (idx : ℕ) (multigraph : Bool)
    (mkStream : ℤ → ℕ → ℕ) (msd : ℤ) (omp numNodes : ℕ) (fuel : ℕ)
    (w : ℕ) : Option (List (ℕ × ℕ)) :=
  match runNodes secondNodes degrees existing multigraph fuel
      (chunkNodes omp numNodes w) (workerRng mkStream (initSeeds omp msd) w) with
  | none => none
  | some (rs, _) =>
      some (rs.flatMap (fun nr => blockEvents idx degrees nr.1 nr.2))

/-- Apply a list of `(position, value)` write events to the output
array, modelled as a total function (unwritten cells read `0`). -/
def applyEvents (b : ℕ → ℕ) (evs : List (ℕ × ℕ)) : ℕ → ℕ :=
  evs.foldl (fun b e => Function.update b e.1 e.2) b

/-- `_gen_edges` executed under a given scheduling `order` of its
workers: every worker must terminate (else the C++ call never returns),
and the flat output buffer of length `2 * Σ degrees` is read back from
the folded write events. -/
def genEdges (firstNodes : List ℕ) (degrees : List ℕ)
    (secondNodes : List ℕ) (existing : List (List ℕ)) (idx : ℕ)
    (multigraph : Bool) (mkStream : ℤ → ℕ → ℕ) (msd : ℤ) (omp : ℕ)
    (order : List ℕ) (fuel : ℕ) : Option (List ℕ) :=
  let numNodes := firstNodes.length
  let ev := workerEvents secondNodes degrees existing idx multigraph
      mkStream msd omp numNodes fuel
  if (List.range omp).all (fun w => (ev w).isSome) then
    let buf := order.foldl (fun b w => applyEvents b ((ev w).getD [])) (fun _ => 0)
    some ((List.range (2 * (degrees.take numNodes).sum)).map buf)
  else none

/-- Read the flat interleaved buffer back as `(source, target)` pairs,
undoing the `idx` transposition: pair `q` is
`(buf[2q + idx], buf[2q + 1 - idx])`. -/
def pairsOfFlat (idx : ℕ) (buf : List ℕ) : List (ℕ × ℕ) :=
  (List.range (buf.length / 2)).map (fun q =>
    (buf.getD (2 * q + idx) 0, buf.getD (2 * q + 1 - idx) 0))

/-!
### `_cdistance_rule`

Outcomes of a distance-rule call.  `invalid` is the
`std::invalid_argument` throw, `oob` an out-of-bounds vector read
(undefined behaviour in C++), `timeout` fuel exhaustion (the C++ loops
without terminating in the runs this stands for).
-/

inductive Res (α : Type) where
  | ok : α → Res α
  | invalid : String → Res α
  | oob : Res α
  | timeout : Res α
  deriving DecidableEq

/-- Sequencing of distance-rule outcomes. -/
def Res.bind {α β : Type} : Res α → (α → Res β) → Res β
  | .ok a, f => f a
  | .invalid s, _ => .invalid s
  | .oob, _ => .oob
  | .timeout, _ => .timeout

/-- `2^64`, the modulus of `size_t` arithmetic. -/
def U64 : ℕ := 2 ^ 64

/-- The upper bound `nln - 1` of `rnd_target`, computed on `size_t`:
for `nln = 0` it wraps around to `2^64 - 1`. -/
def rndTargetUpper (nln : ℕ) : ℕ :=
  (nln + U64 - 1) % U64

/-- The rejection loop
`tgt = src; while (tgt == src) { rnd = rnd_target(generator_); tgt = local_tgts[rnd]; }`.
Reading `local_tgts[rnd]` outside the list is `oob`. -/
def drawTarget (src : ℕ) (tgts : List ℕ) : ℕ → Rng → Res (ℕ × Rng)
  | 0, _ => .timeout
  | f + 1, g =>
      match tgts.get? (uniformInt 0 (rndTargetUpper tgts.length) g).1 with
      | none => .oob
      | some tgt =>
          if tgt = src then
            drawTarget src tgts f (uniformInt 0 (rndTargetUpper tgts.length) g).2
          else .ok (tgt, (uniformInt 0 (rndTargetUpper tgts.length) g).2)

/-- The `for (j = 0; j < local_tests; j++)` trial loop for one source
node: draw a target, draw the Bernoulli gate
(`proba >= rnd_uniform(generator_)`, abstracted as `pAccept src tgt v`
over the raw draw `v`), and push accepted pairs onto `elocal_tmp`. -/
def drTrials (pAccept : ℕ → ℕ → ℕ → Bool) (src : ℕ) (tgts : List ℕ)
    (fuel : ℕ) : ℕ → List (ℕ × ℕ) → Rng → Res (List (ℕ × ℕ) × Rng)
  | 0, acc, g => .ok (acc, g)
  | t + 1, acc, g =>
      (drawTarget src tgts fuel g).bind (fun tg =>
        drTrials pAccept src tgts fuel t
          (if pAccept src tg.1 (tg.2.next).1 then acc ++ [(src, tg.1)] else acc)
          (tg.2.next).2)

/-- Per-worker mutable state of the parallel region: its generator, its
`hash_map`, its accumulated `local_edges`, the never-cleared
`elocal_tmp` staging buffer, and `num_elocal`. -/
structure DRWorker where
  rng : Rng
  hashMap : Finset (ℕ × ℕ)
  localEdges : List (ℕ × ℕ)
  elocalTmp : List (ℕ × ℕ)
  numElocal : ℕ

instance : Inhabited DRWorker :=
  ⟨⟨⟨fun _ => 0, 0⟩, ∅, [], [], 0⟩⟩

/-- Static inputs of the distance-rule run shared by every loop. -/
structure DRInput where
  sourceNodes : List ℕ
  targetNodes : List (List ℕ)
  pAccept : ℕ → ℕ → ℕ → Bool
  multigraph : Bool
  initialEnum : ℕ
  targetEnum : ℕ
  tot : ℕ
  numOmp : ℕ
  fuel : ℕ

/-- The `#pragma omp for schedule(static)` body over one worker's
nodes: for node index `i`,
`local_tests = max(size_t(nln * (target_enum - current_enum) * (1/tot)), 1)`
(the C++ computes the product in `double` and truncates; modelled as the
floor `nln * (target_enum - current_enum) / tot`), then runs the trial
loop, accumulating onto `elocal_tmp`. -/
def drNodes (inp : DRInput) (currentEnum : ℕ) :
    List ℕ → List (ℕ × ℕ) → Rng → Res (List (ℕ × ℕ) × Rng)
  | [], acc, g => .ok (acc, g)
  | i :: is, acc, g =>
      let tgts := inp.targetNodes.getD i []
      let tests := max (tgts.length * (inp.targetEnum - currentEnum) / inp.tot) 1
      let src := inp.sourceNodes.getD i 0
      (drTrials inp.pAccept src tgts inp.fuel tests acc g).bind (fun ag =>
        drNodes inp currentEnum is ag.1 ag.2)

/-- One round of the `do { ... }` loop for a single worker: run its
nodes, append the staging buffer onto `local_edges`
(`local_edges[k].insert(end, elocal_tmp[k].begin(), elocal_tmp[k].end())`
— note `elocal_tmp` is never cleared between rounds), then
`num_elocal = multigraph ? local_edges.size() : _unique_2d(local_edges, hash_map)`
and `local_edges.resize(num_elocal)`. -/
def drWorkerRound (inp : DRInput) (currentEnum : ℕ) (nodes : List ℕ)
    (st : DRWorker) : Res DRWorker :=
  (drNodes inp currentEnum nodes st.elocalTmp st.rng).bind (fun tg =>
    let le := st.localEdges ++ tg.1
    let dedup := if inp.multigraph then (le, st.hashMap, le.length)
                 else unique2d le st.hashMap
    .ok { rng := tg.2, hashMap := dedup.2.1,
          localEdges := dedup.1.take dedup.2.2, elocalTmp := tg.1,
          numElocal := dedup.2.2 })

/-- One synchronized round across all workers; worker `w` owns the
static chunk `chunkNodes numOmp (targetNodes.length) w`, identically in
every round.  `currentEnum` has just been reset to `initial_enum` by the
`single` section, so every worker reads that value. -/
def drRound (inp : DRInput) (currentEnum : ℕ) :
    List DRWorker → ℕ → Res (List DRWorker)
  | [], _ => .ok []
  | st :: rest, w =>
      (drWorkerRound inp currentEnum
          (chunkNodes inp.numOmp inp.targetNodes.length w) st).bind (fun st' =>
        (drRound inp currentEnum rest (w + 1)).bind (fun rest' =>
          .ok (st' :: rest')))

/-- The `do { ... } while (current_enum < target_enum)` loop: each round
resets `current_enum` to `initial_enum`, runs every worker, and the
atomic additions leave `current_enum = initial_enum + Σ_w num_elocal`. -/
def drLoop (inp : DRInput) : ℕ → List DRWorker → Res (List DRWorker)
  | 0, _ => .timeout
  | f + 1, sts =>
      (drRound inp inp.initialEnum sts 0).bind (fun sts' =>
        let current := inp.initialEnum + (sts'.map DRWorker.numElocal).sum
        if current < inp.targetEnum then drLoop inp f sts' else .ok sts')

/-- The final fill: one worker first writes the existing edges at
positions `0 .. initial_enum - 1`; then, in critical-section `arrival`
order, each worker copies its local edges while
`i < num_elocal && ecount_fill < target_enum`. -/
def drFill (existing : List (ℕ × ℕ)) (targetEnum : ℕ)
    (sts : List DRWorker) (arrival : List ℕ) : List (ℕ × ℕ) :=
  arrival.foldl
    (fun out w =>
      let st := sts.getD w default
      out ++ (st.localEdges.take st.numElocal).take (targetEnum - out.length))
    existing

/-- The bundle of static inputs `_cdistance_rule` hands to its loops:
`initial_enum = existing_edges[0].size()`,
`target_enum = initial_enum + num_edges`, and `tot_neighbours` the total
candidate count. -/
def mkDRInput (sourceNodes : List ℕ) (targetNodes : List (List ℕ))
    (pAccept : ℕ → ℕ → ℕ → Bool) (multigraph : Bool) (numEdges : ℕ)
    (existing : List (ℕ × ℕ)) (numOmp fuel : ℕ) : DRInput :=
  { sourceNodes := sourceNodes, targetNodes := targetNodes,
    pAccept := pAccept, multigraph := multigraph,
    initialEnum := existing.length,
    targetEnum := existing.length + numEdges,
    tot := (targetNodes.map List.length).sum,
    numOmp := numOmp, fuel := fuel }

/-- `_cdistance_rule`.  The float connection kernel `_proba` and the
coordinate arrays live outside `src/`; following the spec they combine
into the acceptance test `proba(rule, inv_scale, distance(src,tgt)) >=
rnd_uniform(generator_)`, abstracted here as `pAccept src tgt v` with
`v` the raw uniform draw.  `arrival` is the order in which workers pass
the final `omp critical` section (scheduling, not an input of the C++
call); `fuel` bounds loop rounds and rejection draws. -/
def cdistanceRule (sourceNodes : List ℕ) (targetNodes : List (List ℕ))
    (pAccept : ℕ → ℕ → ℕ → Bool) (numEdges : ℕ)
    (existing : List (ℕ × ℕ)) (multigraph : Bool)
    (mkStream : ℤ → ℕ → ℕ) (msd : ℤ) (numOmp : ℕ)
    (arrival : List ℕ) (fuel : ℕ) : Res (List (ℕ × ℕ)) :=
  let seeds := initSeeds numOmp msd
  let initialEnum := existing.length
  let targetEnum := initialEnum + numEdges
  let tot := (targetNodes.map List.length).sum
  if tot < targetEnum then
    .invalid "Scale is too small: there are not enough close neighbours to create the required number of connections. Increase `scale` or `neuron_density`."
  else
    let inp : DRInput := mkDRInput sourceNodes targetNodes pAccept multigraph
      numEdges existing numOmp fuel
    let sts₀ := (List.range numOmp).map (fun w =>
      { rng := workerRng mkStream seeds w, hashMap := ∅, localEdges := [],
        elocalTmp := [], numElocal := 0 : DRWorker })
    (drLoop inp fuel sts₀).bind (fun sts =>
      .ok (drFill existing targetEnum sts arrival))

/-- Shape of a well-formed generated distance-rule edge: its source is
`source_nodes[i]` and its target drawn from `target_nodes[i]` for some
node index `i`, with target ≠ source. -/
def validEdge (inp : DRInput) (e : ℕ × ℕ) : Prop :=
  ∃ i, e.1 = inp.sourceNodes.getD i 0 ∧ e.2 ∈ inp.targetNodes.getD i [] ∧
    e.2 ≠ e.1

/-- Structural worker-state invariant: `local_edges` has exactly
`num_elocal` entries after the `resize`, and in simple-graph mode the
hash map mirrors the deduplicated buffer. -/
def WInv (mg : Bool) (st : DRWorker) : Prop :=
  st.numElocal = st.localEdges.length ∧
  st.hashMap.card ≤ st.localEdges.length ∧
  (mg = false → st.hashMap.card = st.numElocal)

/-- All edges a worker has accumulated are well-formed. -/
def EdgesOk (inp : DRInput) (st : DRWorker) : Prop :=
  (∀ e ∈ st.localEdges, validEdge inp e) ∧
  (∀ e ∈ st.elocalTmp, validEdge inp e)

/-!
## Lemmas about the compaction pass
-/

theorem getD_mem_of_lt {α : Type} (d : α) (l : List α) (i : ℕ)
    (h : i < l.length) : l.getD i d ∈ l := by
  rw [List.getD_eq_getElem?_getD, List.getElem?_eq_getElem h]
  exact List.getElem_mem h

theorem getD_set_self {α : Type} (l : List α) (i : ℕ) (x d : α)
    (h : i < l.length) : (l.set i x).getD i d = x := by
  simp [List.getD_eq_getElem?_getD, List.getElem?_set, h]

theorem getD_set_ne {α : Type} (l : List α) (i j : ℕ) (x d : α)
    (h : i ≠ j) : (l.set i x).getD j d = l.getD j d := by
  simp [List.getD_eq_getElem?_getD, List.getElem?_set, h]

theorem uniqueAux_length {α : Type} [DecidableEq α] (d : α) :
    ∀ (n : ℕ) (a : List α) (m : Finset α) (u i : ℕ),
      (uniqueAux d n a m u i).1.length = a.length := by
  intro n
  induction n with
  | zero => intro a m u i; simp [uniqueAux]
  | succ n ih =>
      intro a m u i
      simp only [uniqueAux]
      split
      · split
        · exact ih a m u (i + 1)
        · rw [ih]; simp
      · rfl

theorem uniqueAux_frame {α : Type} [DecidableEq α] (d : α) :
    ∀ (n : ℕ) (a : List α) (m : Finset α) (u i j : ℕ), j < u →
      (uniqueAux d n a m u i).1.getD j d = a.getD j d := by
  intro n
  induction n with
  | zero => intro a m u i j _; simp [uniqueAux]
  | succ n ih =>
      intro a m u i j hj
      simp only [uniqueAux]
      split
      · split
        · exact ih a m u (i + 1) j hj
        · rw [ih _ _ _ _ j (Nat.lt_succ_of_lt hj)]
          exact getD_set_ne _ _ _ _ _ (Nat.ne_of_gt hj)
      · rfl

theorem uniqueAux_subset {α : Type} [DecidableEq α] (d : α) :
    ∀ (n : ℕ) (a : List α) (m : Finset α) (u i : ℕ) (v : α),
      v ∈ (uniqueAux d n a m u i).1 → v ∈ a := by
  intro n
  induction n with
  | zero => intro a m u i v hv; simpa [uniqueAux] using hv
  | succ n ih =>
      intro a m u i v hv
      simp only [uniqueAux] at hv
      split at hv
      · split at hv
        · exact ih a m u (i + 1) v hv
        · rcases List.mem_or_eq_of_mem_set (ih _ _ _ _ v hv) with h | h
          · exact h
          · subst h
            next hlt _ => exact getD_mem_of_lt d a i hlt
      · exact hv

theorem uniqueAux_map_mono {α : Type} [DecidableEq α] (d : α) :
    ∀ (n : ℕ) (a : List α) (m : Finset α) (u i : ℕ),
      m ⊆ (uniqueAux d n a m u i).2.1 := by
  intro n
  induction n with
  | zero => intro a m u i; simp [uniqueAux]
  | succ n ih =>
      intro a m u i
      simp only [uniqueAux]
      split
      · split
        · exact ih a m u (i + 1)
        · exact fun x hx =>
            ih (a.set u _) (insert _ m) (u + 1) (i + 1) (Finset.mem_insert_of_mem hx)
      · exact fun x hx => hx

theorem uniqueAux_card {α : Type} [DecidableEq α] (d : α) :
    ∀ (n : ℕ) (a : List α) (m : Finset α) (u i : ℕ), u = m.card →
      (uniqueAux d n a m u i).2.2 = (uniqueAux d n a m u i).2.1.card := by
  intro n
  induction n with
  | zero => intro a m u i h; simpa [uniqueAux] using h
  | succ n ih =>
      intro a m u i h
      simp only [uniqueAux]
      split
      · split
        · exact ih a m u (i + 1) h
        · next hmem =>
            exact ih _ _ (u + 1) (i + 1)
              (by rw [Finset.card_insert_of_not_mem hmem, h])
      · exact h

theorem uniqueAux_le {α : Type} [DecidableEq α] (d : α) :
    ∀ (n : ℕ) (a : List α) (m : Finset α) (u i : ℕ),
      (uniqueAux d n a m u i).2.2 ≤ u + (a.length - i) := by
  intro n
  induction n with
  | zero => intro a m u i; simp [uniqueAux]
  | succ n ih =>
      intro a m u i
      simp only [uniqueAux]
      split
      · next hi =>
        split
        · exact (ih a m u (i + 1)).trans
            (by omega)
        · refine ((ih _ _ (u + 1) (i + 1)).trans ?_)
          rw [List.length_set]; omega
      · simp

theorem uniqueAux_noop {α : Type} [DecidableEq α] (d : α) :
    ∀ (n : ℕ) (a : List α) (m : Finset α) (u i : ℕ),
      (∀ j, i ≤ j → j < a.length → a.getD j d ∈ m) →
      uniqueAux d n a m u i = (a, m, u) := by
  intro n
  induction n with
  | zero => intro a m u i _; simp [uniqueAux]
  | succ n ih =>
      intro a m u i hmem
      simp only [uniqueAux]
      split
      · next hi =>
        rw [if_pos (hmem i le_rfl hi)]
        exact ih a m u (i + 1) (fun j hj hj' => hmem j (by omega) hj')
      · rfl

theorem uniqueAux_skip {α : Type} [DecidableEq α] (d : α) :
    ∀ (dlt i n : ℕ) (a : List α) (m : Finset α) (u : ℕ), i + dlt ≤ a.length →
      (∀ j, i ≤ j → j < i + dlt → a.getD j d ∈ m) →
      uniqueAux d (n + dlt) a m u i = uniqueAux d n a m u (i + dlt) := by
  intro dlt
  induction dlt with
  | zero => intro i n a m u _ _; rfl
  | succ dlt ih =>
      intro i n a m u hlen hmem
      have hi : i < a.length := by omega
      have hstep : n + (dlt + 1) = (n + dlt) + 1 := by omega
      rw [hstep]
      simp only [uniqueAux, if_pos hi, if_pos (hmem i le_rfl (by omega))]
      have := ih (i + 1) n a m u (by omega)
        (fun j hj hj' => hmem j (by omega) (by omega))
      rw [this]
      congr 1
      omega

theorem uniqueAux_cover {α : Type} [DecidableEq α] (d : α) (c : ℕ) :
    ∀ (n : ℕ) (a : List α) (m : Finset α) (u i : ℕ), a.length ≤ i + n →
      (∀ j, c ≤ j → j < i → a.getD j d ∈ m) →
      ∀ j, c ≤ j → j < a.length →
        (uniqueAux d n a m u i).1.getD j d ∈ (uniqueAux d n a m u i).2.1 := by
  intro n
  induction n with
  | zero =>
      intro a m u i hn hmem j hcj hj
      simp only [uniqueAux]
      exact hmem j hcj (by omega)
  | succ n ih =>
      intro a m u i hn hmem j hcj hj
      simp only [uniqueAux]
      split
      · split
        · next hin =>
            exact ih a m u (i + 1) (by omega)
              (fun j' hcj' hj' => by
                rcases Nat.lt_or_ge j' i with h | h
                · exact hmem j' hcj' h
                · have : j' = i := by omega
                  subst this; exact hin) j hcj hj
        · next hi hnotin =>
            refine ih _ _ (u + 1) (i + 1) (by rw [List.length_set]; omega)
              ?_ j hcj (by rw [List.length_set]; exact hj)
            intro j' hcj' hj'
            rcases eq_or_ne u j' with h | h
            · subst h
              have hu : u < a.length := by omega
              rw [getD_set_self _ _ _ _ hu]
              exact Finset.mem_insert_self _ _
            · rw [getD_set_ne _ _ _ _ _ h]
              rcases Nat.lt_or_ge j' i with hlt | hge
              · exact Finset.mem_insert_of_mem (hmem j' hcj' hlt)
              · have : j' = i := by omega
                subst this
                exact Finset.mem_insert_self _ _
      · next hge =>
          exact hmem j hcj (by omega)

theorem uniqueAux_u_mono {α : Type} [DecidableEq α] (d : α) :
    ∀ (n : ℕ) (a : List α) (m : Finset α) (u i : ℕ),
      u ≤ (uniqueAux d n a m u i).2.2 := by
  intro n
  induction n with
  | zero => intro a m u i; simp [uniqueAux]
  | succ n ih =>
      intro a m u i
      simp only [uniqueAux]
      split
      · split
        · exact ih a m u (i + 1)
        · exact (Nat.le_succ u).trans (ih _ _ (u + 1) (i + 1))
      · exact le_rfl

theorem take_set_succ {α : Type} (l : List α) (u : ℕ) (x : α)
    (h : u < l.length) : (l.set u x).take (u + 1) = l.take u ++ [x] := by
  apply List.ext_getElem?
  intro j
  simp only [List.getElem?_take, List.getElem?_set, List.getElem?_append,
    List.length_take, Nat.min_eq_left (Nat.le_of_lt h)]
  rcases Nat.lt_trichotomy j u with hj | hj | hj
  · rw [if_pos (by omega), if_neg (by omega), if_pos hj, if_pos hj]
  · subst hj
    rw [if_pos (by omega), if_pos rfl, if_pos h, if_neg (by omega),
      Nat.sub_self]
    rfl
  · rw [if_neg (by omega), if_neg (by omega)]
    rw [Eq.comm, List.getElem?_eq_none]
    simp only [List.length_cons, List.length_nil]
    omega

/-- Compaction invariant: when the map is exactly the set of the first
`u` buffer entries (which are pairwise distinct) and the scan is at
`i ≥ u`, the pass preserves that correspondence. -/
theorem uniqueAux_compact {α : Type} [DecidableEq α] (d : α) :
    ∀ (n : ℕ) (a : List α) (m : Finset α) (u i : ℕ),
      u ≤ i → i ≤ a.length →
      (a.take u).Nodup → m = (a.take u).toFinset →
      ((uniqueAux d n a m u i).1.take (uniqueAux d n a m u i).2.2).Nodup ∧
      (uniqueAux d n a m u i).2.1 =
        ((uniqueAux d n a m u i).1.take (uniqueAux d n a m u i).2.2).toFinset ∧
      (uniqueAux d n a m u i).2.2 ≤ a.length := by
  intro n
  induction n with
  | zero =>
      intro a m u i hui hil hnd hcor
      simp only [uniqueAux]
      exact ⟨hnd, hcor, by omega⟩
  | succ n ih =>
      intro a m u i hui hil hnd hcor
      simp only [uniqueAux]
      split
      · next hi =>
        split
        · exact ih a m u (i + 1) (by omega) (by omega) hnd hcor
        · next hnotin =>
            have hu : u < a.length := by omega
            have htake : (a.set u (a.getD i d)).take (u + 1) =
                a.take u ++ [a.getD i d] := take_set_succ a u _ hu
            have hx : a.getD i d ∉ a.take u := by
              intro hmem
              exact hnotin (hcor ▸ List.mem_toFinset.mpr hmem)
            have := ih (a.set u (a.getD i d)) (insert (a.getD i d) m)
              (u + 1) (i + 1) (by omega) (by rw [List.length_set]; omega)
              (by rw [htake, List.nodup_append]
                  refine ⟨hnd, List.nodup_singleton _, ?_⟩
                  intro t ht hmem
                  rw [List.mem_singleton] at hmem
                  subst hmem
                  exact hx ht)
              (by rw [htake, List.toFinset_append, Finset.union_comm, hcor]
                  rw [List.toFinset_cons, List.toFinset_nil]
                  rfl)
            refine ⟨this.1, this.2.1, this.2.2.trans (by rw [List.length_set])⟩
      · exact ⟨hnd, hcor, by show u ≤ a.length; omega⟩

/-- C7: running the compaction a second time on the result of a first
call, with the hash map as the first call left it, returns the same
prefix length: after the first pass every buffer entry the second pass
can scan is already present in the hash map, so no insertions happen. -/
theorem claim_C7 (a : List ℕ) (m : Finset ℕ)
    (b : List (ℕ × ℕ)) (m2 : Finset (ℕ × ℕ)) :
    (unique1d (unique1d a m).1 (unique1d a m).2.1).2.2 = (unique1d a m).2.2 ∧
    (unique2d (unique2d b m2).1 (unique2d b m2).2.1).2.2 =
      (unique2d b m2).2.2 := by
  constructor
  · have hlen : (unique1d a m).1.length = a.length :=
      uniqueAux_length 0 a.length a m m.card 0
    have hcard : (unique1d a m).2.2 = (unique1d a m).2.1.card :=
      uniqueAux_card 0 a.length a m m.card 0 rfl
    have hcov : ∀ j, 0 ≤ j → j < a.length →
        (unique1d a m).1.getD j 0 ∈ (unique1d a m).2.1 :=
      uniqueAux_cover 0 0 a.length a m m.card 0 (by omega)
        (fun j _ hj => absurd hj (Nat.not_lt_zero j))
    have hnoop : unique1d (unique1d a m).1 (unique1d a m).2.1 =
        ((unique1d a m).1, (unique1d a m).2.1, (unique1d a m).2.1.card) := by
      unfold unique1d
      exact uniqueAux_noop 0 (unique1d a m).1.length (unique1d a m).1
        (unique1d a m).2.1 (unique1d a m).2.1.card 0
        (fun j _ hj => hcov j (Nat.zero_le j) (hlen ▸ hj))
    rw [hnoop, hcard]
  · have hlen : (unique2d b m2).1.length = b.length :=
      uniqueAux_length (0, 0) b.length b m2 m2.card m2.card
    have hcard : (unique2d b m2).2.2 = (unique2d b m2).2.1.card :=
      uniqueAux_card (0, 0) b.length b m2 m2.card m2.card rfl
    have humono : m2.card ≤ (unique2d b m2).2.2 :=
      uniqueAux_u_mono (0, 0) b.length b m2 m2.card m2.card
    have hcov : ∀ j, m2.card ≤ j → j < b.length →
        (unique2d b m2).1.getD j (0, 0) ∈ (unique2d b m2).2.1 :=
      uniqueAux_cover (0, 0) m2.card b.length b m2 m2.card m2.card
        (by omega) (fun j hj hj' => absurd hj (by omega))
    have hnoop : unique2d (unique2d b m2).1 (unique2d b m2).2.1 =
        ((unique2d b m2).1, (unique2d b m2).2.1, (unique2d b m2).2.1.card) := by
      unfold unique2d
      exact uniqueAux_noop (0, 0) (unique2d b m2).1.length (unique2d b m2).1
        (unique2d b m2).2.1 (unique2d b m2).2.1.card (unique2d b m2).2.1.card
        (fun j hj hj' => hcov j (humono.trans (hcard ▸ hj)) (hlen ▸ hj'))
    rw [hnoop, hcard]

/-- C8: a compaction call whose hash map holds `k` keys at entry, with
the buffer's first `k` entries forming the previously compacted unique
prefix, leaves those first `k` positions unchanged — every write lands
at a position `≥ k` (the write cursor starts at `hash_map.size()` and
never decreases). -/
theorem claim_C8 (a : List ℕ) (m : Finset ℕ)
    (b : List (ℕ × ℕ)) (m2 : Finset (ℕ × ℕ))
    (h1 : (a.take m.card).Nodup) (h2 : m = (a.take m.card).toFinset)
    (h3 : (b.take m2.card).Nodup) (h4 : m2 = (b.take m2.card).toFinset) :
    (∀ j, j < m.card → (unique1d a m).1.getD j 0 = a.getD j 0) ∧
    (∀ j, j < m2.card → (unique2d b m2).1.getD j (0, 0) = b.getD j (0, 0)) :=
  ⟨fun j hj => uniqueAux_frame 0 a.length a m m.card 0 j hj,
   fun j hj => uniqueAux_frame (0, 0) b.length b m2 m2.card m2.card j hj⟩

/-- Witness for C8 at a concrete compacted prefix. -/
theorem claim_C8_witness :
    (unique1d [5, 7, 5] {5}).1.getD 0 0 = ([5, 7, 5] : List ℕ).getD 0 0 ∧
    (unique2d [(1, 2), (1, 2)] {(1, 2)}).1.getD 0 (0, 0) =
      ([(1, 2), (1, 2)] : List (ℕ × ℕ)).getD 0 (0, 0) :=
  ⟨(claim_C8 [5, 7, 5] {5} [(1, 2), (1, 2)] {(1, 2)}
      (by decide) (by decide) (by decide) (by decide)).1 0 (by decide),
   (claim_C8 [5, 7, 5] {5} [(1, 2), (1, 2)] {(1, 2)}
      (by decide) (by decide) (by decide) (by decide)).2 0 (by decide)⟩

/-!
## Seed initialization and assertion claims
-/

/-- C6: for every master seed `msd` and worker count `W ≥ 1`,
`_init_seeds` produces exactly the `W` seeds `msd + i + 1` for
`i = 0 .. W - 1`, and each worker's generator is constructed from its
own derived seed. -/
theorem claim_C6 (msd : ℤ) (W : ℕ) (mkStream : ℤ → ℕ → ℕ) (hW : 1 ≤ W) :
    (initSeeds W msd).length = W ∧
    (∀ i, i < W → (initSeeds W msd).getD i 0 = msd + i + 1) ∧
    (∀ w, w < W → workerRng mkStream (initSeeds W msd) w =
      ⟨mkStream (msd + w + 1), 0⟩) := by
  have hget : ∀ i, i < W → (initSeeds W msd).getD i 0 = msd + i + 1 := by
    intro i hi
    rw [initSeeds, List.getD_eq_getElem?_getD, List.getElem?_map,
      List.getElem?_range hi]
    rfl
  refine ⟨by simp [initSeeds], hget, ?_⟩
  intro w hw
  rw [workerRng, hget w hw]

/-- Witness for C6 at `msd = 4`, `W = 3`. -/
theorem claim_C6_witness :
    (initSeeds 3 4).length = 3 ∧
    (∀ i, i < 3 → (initSeeds 3 4).getD i 0 = 4 + i + 1) ∧
    (∀ w, w < 3 → workerRng (fun s _ => s.toNat) (initSeeds 3 4) w =
      ⟨(fun (s : ℤ) (_ : ℕ) => s.toNat) ((4 : ℤ) + w + 1), 0⟩) :=
  claim_C6 4 3 (fun s _ => s.toNat) (by decide)

theorem seedStep_none {existing : List (List ℕ)} {otherEnd i : ℕ} :
    seedStep existing otherEnd none i = none := rfl

theorem foldl_seedStep_none {existing : List (List ℕ)} {otherEnd : ℕ} :
    ∀ is : List ℕ,
      List.foldl (seedStep existing otherEnd) none is = none := by
  intro is
  induction is with
  | nil => rfl
  | cons i t ih =>
      rw [List.foldl_cons, seedStep_none]
      exact ih

theorem seedStep_mono {existing : List (List ℕ)} {otherEnd i : ℕ}
    {l l₁ : List ℕ}
    (h : seedStep existing otherEnd (some l) i = some l₁) :
    l.length ≤ l₁.length := by
  rw [seedStep] at h
  rcases hs : (existing.getD 0 [])[i]? with _ | s
  · rw [hs] at h
    simp only [] at h
    exact Option.noConfusion h
  · rw [hs] at h
    simp only [] at h
    by_cases hse : s = otherEnd
    · rw [if_pos hse] at h
      rcases ht : (existing.getD 1 [])[i]? with _ | t
      · rw [ht] at h
        simp only [] at h
        exact Option.noConfusion h
      · rw [ht] at h
        simp only [Option.some.injEq] at h
        rw [← h, List.length_append]
        omega
    · rw [if_neg hse] at h
      simp only [Option.some.injEq] at h
      rw [h]

theorem foldl_seedStep_mono {existing : List (List ℕ)} {otherEnd : ℕ} :
    ∀ {is : List ℕ} {l l' : List ℕ},
      List.foldl (seedStep existing otherEnd) (some l) is = some l' →
      l.length ≤ l'.length := by
  intro is
  induction is with
  | nil =>
      intro l l' h
      rw [List.foldl_nil, Option.some.injEq] at h
      rw [h]
  | cons i t ih =>
      intro l l' h
      rw [List.foldl_cons] at h
      rcases hstep : seedStep existing otherEnd (some l) i with _ | l₁
      · rw [hstep, foldl_seedStep_none] at h
        exact absurd h (by simp)
      · rw [hstep] at h
        exact le_trans (seedStep_mono hstep) (ih h)

theorem seedStep_hit {existing : List (List ℕ)} {otherEnd i : ℕ}
    {l l₁ : List ℕ}
    (hsrc : (existing.getD 0 [])[i]? = some otherEnd)
    (h : seedStep existing otherEnd (some l) i = some l₁) :
    1 ≤ l₁.length := by
  rw [seedStep, hsrc] at h
  simp only [] at h
  rw [if_true] at h
  rcases ht : (existing.getD 1 [])[i]? with _ | t
  · rw [ht] at h
    simp only [] at h
    exact Option.noConfusion h
  · rw [ht] at h
    simp only [Option.some.injEq] at h
    rw [← h, List.length_append, List.length_singleton]
    omega

theorem foldl_seedStep_hit {existing : List (List ℕ)} {otherEnd : ℕ} :
    ∀ {is : List ℕ} {l pre : List ℕ} {i : ℕ}, i ∈ is →
      (existing.getD 0 [])[i]? = some otherEnd →
      List.foldl (seedStep existing otherEnd) (some l) is = some pre →
      1 ≤ pre.length := by
  intro is
  induction is with
  | nil =>
      intro l pre i hi _ _
      exact absurd hi (List.not_mem_nil i)
  | cons j t ih =>
      intro l pre i hi hsrc hfold
      rw [List.foldl_cons] at hfold
      rcases hstep : seedStep existing otherEnd (some l) j with _ | l₁
      · rw [hstep, foldl_seedStep_none] at hfold
        exact absurd hfold (by simp)
      · rw [hstep] at hfold
        rcases List.mem_cons.mp hi with h | h
        · subst h
          exact le_trans (seedStep_hit hsrc hstep) (foldl_seedStep_mono hfold)
        · exact ih h hsrc hfold

/-- C9: in `_gen_edge_complement`, `assert(target_degree == degree)`
holds iff no pre-existing target is seeded into the result buffer; and
whenever some inspected entry of the existing-edge array (the seeding
loop inspects only the first `existing_edges[0].size()` entries, the
outer-vector size) has `other_end` as its source, the seeded prefix is
non-empty and the assertion fails. -/
theorem claim_C9 (existing : List (List ℕ)) (otherEnd degree : ℕ)
    (pre : List ℕ) (hseed : seedTargets existing otherEnd = some pre) :
    (gecAssertHolds existing otherEnd degree = some true ↔ pre = []) ∧
    ((∃ i, i < existing.length ∧
        (existing.getD 0 [])[i]? = some otherEnd) →
      pre ≠ [] ∧ gecAssertHolds existing otherEnd degree = some false) := by
  have hassert : gecAssertHolds existing otherEnd degree =
      some (decide (pre.length + degree = degree)) := by
    rw [gecAssertHolds, hseed, Option.map_some']
  have hiff : gecAssertHolds existing otherEnd degree = some true ↔
      pre = [] := by
    rw [hassert]
    constructor
    · intro h
      have h1 : decide (pre.length + degree = degree) = true :=
        Option.some.inj h
      rw [decide_eq_true_eq] at h1
      have : pre.length = 0 := by omega
      exact List.length_eq_zero.mp this
    · intro h
      subst h
      simp
  refine ⟨hiff, fun hex => ?_⟩
  rcases hex with ⟨i, hi, hsrc⟩
  have hlen : 1 ≤ pre.length := by
    rw [seedTargets] at hseed
    exact foldl_seedStep_hit (List.mem_range.mpr hi) hsrc hseed
  have hne : pre ≠ [] := by
    intro h
    rw [h] at hlen
    exact absurd hlen (by simp)
  refine ⟨hne, ?_⟩
  rw [hassert]
  have : decide (pre.length + degree = degree) = false := by
    rw [decide_eq_false_iff_not]
    omega
  rw [this]

/-- Witness for C9: existing edges `(3, 7), (1, 8)` in the
`[sources, targets]` layout; inspected entry 0 is sourced at node 3,
so target 7 is seeded and the assertion fails. -/
theorem claim_C9_witness :
    ((gecAssertHolds [[3, 1], [7, 8]] 3 2 = some true ↔
        ([7] : List ℕ) = []) ∧
      (([7] : List ℕ) ≠ [] ∧
        gecAssertHolds [[3, 1], [7, 8]] 3 2 = some false)) :=
  ⟨(claim_C9 [[3, 1], [7, 8]] 3 2 [7] (by decide)).1,
   (claim_C9 [[3, 1], [7, 8]] 3 2 [7] (by decide)).2
     ⟨0, by decide, by decide⟩⟩

/-!
## Distance-rule claims
-/

/-- C2: in simple-graph mode, whenever the total number of candidate
`(source, neighbour)` pairs over all nodes is smaller than the requested
new-edge count, `_cdistance_rule` throws `std::invalid_argument` — and
it does so before the parallel region, for every kernel, stream,
arrival order and fuel, so no partial output is ever produced. -/
theorem claim_C2 (sourceNodes : List ℕ) (targetNodes : List (List ℕ))
    (pAccept : ℕ → ℕ → ℕ → Bool) (numEdges : ℕ) (existing : List (ℕ × ℕ))
    (mkStream : ℤ → ℕ → ℕ) (msd : ℤ) (numOmp : ℕ) (arrival : List ℕ)
    (fuel : ℕ)
    (hlt : (targetNodes.map List.length).sum < numEdges) :
    cdistanceRule sourceNodes targetNodes pAccept numEdges existing false
      mkStream msd numOmp arrival fuel =
      Res.invalid "Scale is too small: there are not enough close neighbours to create the required number of connections. Increase `scale` or `neuron_density`." := by
  simp only [cdistanceRule]
  rw [if_pos (by omega)]

/-- Witness for C2: three one-element candidate lists, four requested
edges (concrete scenario B of the spec). -/
theorem claim_C2_witness :
    cdistanceRule [0, 1, 2] [[1], [2], [0]] (fun _ _ _ => true) 4 [] false
      (fun _ _ => 0) 0 1 [0] 10 =
      Res.invalid "Scale is too small: there are not enough close neighbours to create the required number of connections. Increase `scale` or `neuron_density`." :=
  claim_C2 [0, 1, 2] [[1], [2], [0]] (fun _ _ _ => true) 4 []
    (fun _ _ => 0) 0 1 [0] 10 (by decide)

theorem Res.bind_eq_ok {α β : Type} {r : Res α} {f : α → Res β} {b : β}
    (h : r.bind f = .ok b) : ∃ a, r = .ok a ∧ f a = .ok b := by
  cases r with
  | ok a => exact ⟨a, rfl, h⟩
  | invalid s => exact absurd h (by simp [Res.bind])
  | oob => exact absurd h (by simp [Res.bind])
  | timeout => exact absurd h (by simp [Res.bind])

theorem Res.bind_ne_oob {α β : Type} {r : Res α} {f : α → Res β}
    (hr : r ≠ .oob) (hf : ∀ a, f a ≠ .oob) : r.bind f ≠ .oob := by
  cases r with
  | ok a => exact hf a
  | invalid s => simp [Res.bind]
  | oob => exact absurd rfl hr
  | timeout => simp [Res.bind]

/-- For a non-empty candidate list, the modular draw index is in
bounds: the `size_t` upper bound `nln - 1` does not wrap, so
`rnd < nln`. -/
theorem rnd_lt_of_pos (nln v : ℕ) (h : 1 ≤ nln) :
    v % (rndTargetUpper nln + 1) < nln := by
  rcases le_or_lt nln U64 with hle | hgt
  · have hupper : rndTargetUpper nln = nln - 1 := by
      rw [rndTargetUpper]
      have h1 : nln + U64 - 1 = (nln - 1) + U64 := by omega
      rw [h1, Nat.add_mod_right]
      exact Nat.mod_eq_of_lt (by have := U64; omega)
    rw [hupper]
    have hpos : nln - 1 + 1 = nln := by omega
    rw [hpos]
    exact Nat.mod_lt v (by omega)
  · have hupper : rndTargetUpper nln < U64 :=
      Nat.mod_lt _ (by rw [U64]; positivity)
    calc v % (rndTargetUpper nln + 1) < rndTargetUpper nln + 1 :=
          Nat.mod_lt v (by omega)
      _ ≤ U64 := by omega
      _ < nln := hgt

theorem chunkStart_add_len (W N w : ℕ) (hw : w < W) :
    chunkStart W N w + chunkLen W N w ≤ N := by
  rw [chunkStart, chunkLen]
  have hmod : W * (N / W) + N % W = N := Nat.div_add_mod N W
  have hmul : (w + 1) * (N / W) ≤ W * (N / W) :=
    Nat.mul_le_mul_right _ (by omega)
  have hmin : min w (N % W) + (if w < N % W then 1 else 0) ≤ N % W := by
    split <;> omega
  have : (w + 1) * (N / W) = w * (N / W) + N / W := by ring
  omega

theorem mem_chunkNodes_lt (W N w i : ℕ) (hw : w < W)
    (hi : i ∈ chunkNodes W N w) : i < N := by
  rw [chunkNodes, List.mem_map] at hi
  rcases hi with ⟨j, hj, rfl⟩
  rw [List.mem_range] at hj
  have := chunkStart_add_len W N w hw
  omega

theorem drawTarget_ok {src : ℕ} {tgts : List ℕ} :
    ∀ {fuel : ℕ} {g : Rng} {tgt : ℕ} {g' : Rng},
      drawTarget src tgts fuel g = .ok (tgt, g') →
      tgt ∈ tgts ∧ tgt ≠ src := by
  intro fuel
  induction fuel with
  | zero => intro g tgt g' h; exact absurd h (by simp [drawTarget])
  | succ f ih =>
      intro g tgt g' h
      rw [drawTarget] at h
      rcases hg : tgts.get? (uniformInt 0 (rndTargetUpper tgts.length) g).1 with
        _ | t
      · rw [hg] at h; exact absurd h (by simp)
      · rw [hg] at h
        simp only [] at h
        by_cases ht : t = src
        · rw [if_pos ht] at h
          exact ih h
        · rw [if_neg ht] at h
          simp only [Res.ok.injEq, Prod.mk.injEq] at h
          rcases h with ⟨rfl, _⟩
          exact ⟨List.get?_mem hg, ht⟩

theorem uniformInt_fst_lt (nln : ℕ) (g : Rng) (h : 1 ≤ nln) :
    (uniformInt 0 (rndTargetUpper nln) g).1 < nln := by
  have := rnd_lt_of_pos nln (g.next).1 h
  simpa [uniformInt] using this

theorem drawTarget_ne_oob {src : ℕ} {tgts : List ℕ} (hne : tgts ≠ []) :
    ∀ (fuel : ℕ) (g : Rng), drawTarget src tgts fuel g ≠ .oob := by
  intro fuel
  induction fuel with
  | zero => intro g; simp [drawTarget]
  | succ f ih =>
      intro g
      rw [drawTarget]
      have hlen : 1 ≤ tgts.length := by
        cases tgts with
        | nil => exact absurd rfl hne
        | cons x xs => simp
      have hlt : (uniformInt 0 (rndTargetUpper tgts.length) g).1 < tgts.length :=
        uniformInt_fst_lt tgts.length g hlen
      rcases hg : tgts.get? (uniformInt 0 (rndTargetUpper tgts.length) g).1 with
        _ | t
      · rw [List.get?_eq_none] at hg
        omega
      · simp only []
        split
        · exact ih _
        · simp

theorem drTrials_mem {pAccept : ℕ → ℕ → ℕ → Bool} {src : ℕ} {tgts : List ℕ}
    {fuel : ℕ} :
    ∀ {t : ℕ} {acc : List (ℕ × ℕ)} {g : Rng} {acc' : List (ℕ × ℕ)} {g' : Rng},
      drTrials pAccept src tgts fuel t acc g = .ok (acc', g') →
      ∀ e ∈ acc', e ∈ acc ∨ (e.1 = src ∧ e.2 ∈ tgts ∧ e.2 ≠ e.1) := by
  intro t
  induction t with
  | zero =>
      intro acc g acc' g' h e he
      rw [drTrials] at h
      simp only [Res.ok.injEq, Prod.mk.injEq] at h
      rcases h with ⟨rfl, _⟩
      exact Or.inl he
  | succ t ih =>
      intro acc g acc' g' h e he
      rw [drTrials] at h
      rcases Res.bind_eq_ok h with ⟨⟨tgt, g₁⟩, hdraw, hrest⟩
      have hd := drawTarget_ok hdraw
      rcases ih hrest e he with h' | h'
      · by_cases hacc : pAccept src tgt (g₁.next).1
        · rw [if_pos hacc] at h'
          rcases List.mem_append.mp h' with h'' | h''
          · exact Or.inl h''
          · rw [List.mem_singleton] at h''
            subst h''
            exact Or.inr ⟨rfl, hd.1, hd.2⟩
        · rw [if_neg hacc] at h'
          exact Or.inl h'
      · exact Or.inr h'

theorem drTrials_ne_oob {pAccept : ℕ → ℕ → ℕ → Bool} {src : ℕ}
    {tgts : List ℕ} {fuel : ℕ} (hne : tgts ≠ []) :
    ∀ (t : ℕ) (acc : List (ℕ × ℕ)) (g : Rng),
      drTrials pAccept src tgts fuel t acc g ≠ .oob := by
  intro t
  induction t with
  | zero => intro acc g; simp [drTrials]
  | succ t ih =>
      intro acc g
      rw [drTrials]
      exact Res.bind_ne_oob (drawTarget_ne_oob hne fuel g)
        (fun a => ih _ _)

theorem Res.bind_ne_oob' {α β : Type} {r : Res α} {f : α → Res β}
    (hr : r ≠ .oob) (hf : ∀ a, r = .ok a → f a ≠ .oob) : r.bind f ≠ .oob := by
  cases r with
  | ok a => exact hf a rfl
  | invalid s => simp [Res.bind]
  | oob => exact absurd rfl hr
  | timeout => simp [Res.bind]

theorem drNodes_mem {inp : DRInput} {cur : ℕ} :
    ∀ {nodes : List ℕ} {acc : List (ℕ × ℕ)} {g : Rng}
      {acc' : List (ℕ × ℕ)} {g' : Rng},
      drNodes inp cur nodes acc g = .ok (acc', g') →
      ∀ e ∈ acc', e ∈ acc ∨ validEdge inp e := by
  intro nodes
  induction nodes with
  | nil =>
      intro acc g acc' g' h e he
      rw [drNodes] at h
      simp only [Res.ok.injEq, Prod.mk.injEq] at h
      rcases h with ⟨rfl, _⟩
      exact Or.inl he
  | cons i is ih =>
      intro acc g acc' g' h e he
      rw [drNodes] at h
      rcases Res.bind_eq_ok h with ⟨⟨acc₁, g₁⟩, htr, hrest⟩
      rcases ih hrest e he with h' | h'
      · rcases drTrials_mem htr e h' with h'' | h''
        · exact Or.inl h''
        · exact Or.inr ⟨i, h''.1, h''.2.1, h''.2.2⟩
      · exact Or.inr h'

theorem drNodes_ne_oob {inp : DRInput} {cur : ℕ}
    (hne : ∀ l ∈ inp.targetNodes, l ≠ []) :
    ∀ (nodes : List ℕ), (∀ i ∈ nodes, i < inp.targetNodes.length) →
      ∀ (acc : List (ℕ × ℕ)) (g : Rng),
        drNodes inp cur nodes acc g ≠ .oob := by
  intro nodes
  induction nodes with
  | nil => intro _ acc g; simp [drNodes]
  | cons i is ih =>
      intro hbound acc g
      rw [drNodes]
      have hmem : inp.targetNodes.getD i [] ∈ inp.targetNodes :=
        getD_mem_of_lt [] inp.targetNodes i (hbound i (by simp))
      exact Res.bind_ne_oob (drTrials_ne_oob (hne _ hmem) _ _ _)
        (fun a => ih (fun j hj => hbound j (by simp [hj])) _ _)

theorem drWorkerRound_eq {inp : DRInput} {cur : ℕ} {nodes : List ℕ}
    {st st' : DRWorker} (h : drWorkerRound inp cur nodes st = .ok st') :
    ∃ tmp g,
      drNodes inp cur nodes st.elocalTmp st.rng = .ok (tmp, g) ∧
      st' = { rng := g,
              hashMap := (if inp.multigraph then
                  (st.localEdges ++ tmp, st.hashMap,
                   (st.localEdges ++ tmp).length)
                else unique2d (st.localEdges ++ tmp) st.hashMap).2.1,
              localEdges := (if inp.multigraph then
                  (st.localEdges ++ tmp, st.hashMap,
                   (st.localEdges ++ tmp).length)
                else unique2d (st.localEdges ++ tmp) st.hashMap).1.take
                  ((if inp.multigraph then
                      (st.localEdges ++ tmp, st.hashMap,
                       (st.localEdges ++ tmp).length)
                    else unique2d (st.localEdges ++ tmp) st.hashMap).2.2),
              elocalTmp := tmp,
              numElocal := (if inp.multigraph then
                  (st.localEdges ++ tmp, st.hashMap,
                   (st.localEdges ++ tmp).length)
                else unique2d (st.localEdges ++ tmp) st.hashMap).2.2 } := by
  rw [drWorkerRound] at h
  rcases Res.bind_eq_ok h with ⟨⟨tmp, g⟩, hn, hok⟩
  refine ⟨tmp, g, hn, ?_⟩
  simp only [Res.ok.injEq] at hok
  exact hok.symm

theorem drWorkerRound_edges {inp : DRInput} {cur : ℕ} {nodes : List ℕ}
    {st st' : DRWorker} (h : drWorkerRound inp cur nodes st = .ok st')
    (hok : EdgesOk inp st) : EdgesOk inp st' := by
  rcases drWorkerRound_eq h with ⟨tmp, g, hn, rfl⟩
  have htmp : ∀ e ∈ tmp, validEdge inp e := by
    intro e he
    rcases drNodes_mem hn e he with h' | h'
    · exact hok.2 e h'
    · exact h'
  have hle : ∀ e ∈ st.localEdges ++ tmp, validEdge inp e := by
    intro e he
    rcases List.mem_append.mp he with h' | h'
    · exact hok.1 e h'
    · exact htmp e h'
  constructor
  · intro e he
    simp only at he
    by_cases hmg : inp.multigraph
    · rw [if_pos hmg] at he
      exact hle e (List.take_subset _ _ he)
    · rw [if_neg hmg] at he
      exact hle e (uniqueAux_subset (0, 0) _ _ _ _ _ e
        (List.take_subset _ _ he))
  · intro e he
    exact htmp e he

theorem drWorkerRound_winv {inp : DRInput} {cur : ℕ} {nodes : List ℕ}
    {st st' : DRWorker} (h : drWorkerRound inp cur nodes st = .ok st')
    (hw : WInv inp.multigraph st) : WInv inp.multigraph st' := by
  rcases drWorkerRound_eq h with ⟨tmp, g, _, rfl⟩
  by_cases hmg : inp.multigraph
  · simp only [WInv, if_pos hmg]
    refine ⟨(List.take_length _).symm ▸ rfl, ?_, fun hfalse => ?_⟩
    · rw [List.take_length, List.length_append]
      exact hw.2.1.trans (by omega)
    · rw [hmg] at hfalse
      exact absurd hfalse (by simp)
  · simp only [WInv, if_neg hmg]
    have hcard : st.hashMap.card ≤ (st.localEdges ++ tmp).length := by
      rw [List.length_append]
      exact hw.2.1.trans (by omega)
    have htu : (unique2d (st.localEdges ++ tmp) st.hashMap).2.2 ≤
        (st.localEdges ++ tmp).length := by
      have := uniqueAux_le (0, 0) (st.localEdges ++ tmp).length
        (st.localEdges ++ tmp) st.hashMap st.hashMap.card st.hashMap.card
      rw [unique2d]
      omega
    have hblen : (unique2d (st.localEdges ++ tmp) st.hashMap).1.length =
        (st.localEdges ++ tmp).length :=
      uniqueAux_length (0, 0) _ _ _ _ _
    have hcard' : (unique2d (st.localEdges ++ tmp) st.hashMap).2.2 =
        (unique2d (st.localEdges ++ tmp) st.hashMap).2.1.card :=
      uniqueAux_card (0, 0) _ _ _ _ _ rfl
    have hlen' : ((unique2d (st.localEdges ++ tmp) st.hashMap).1.take
        (unique2d (st.localEdges ++ tmp) st.hashMap).2.2).length =
        (unique2d (st.localEdges ++ tmp) st.hashMap).2.2 := by
      rw [List.length_take, hblen]
      omega
    exact ⟨hlen'.symm, by omega, fun _ => by omega⟩

theorem drWorkerRound_ne_oob {inp : DRInput} {cur : ℕ} {nodes : List ℕ}
    {st : DRWorker} (hne : ∀ l ∈ inp.targetNodes, l ≠ [])
    (hbound : ∀ i ∈ nodes, i < inp.targetNodes.length) :
    drWorkerRound inp cur nodes st ≠ .oob := by
  rw [drWorkerRound]
  exact Res.bind_ne_oob (drNodes_ne_oob hne nodes hbound _ _)
    (fun a => by simp)

theorem drRound_pred {inp : DRInput} (Q : DRWorker → Prop)
    (hstep : ∀ (cur : ℕ) (nodes : List ℕ) (st st' : DRWorker),
      drWorkerRound inp cur nodes st = .ok st' → Q st → Q st') :
    ∀ {cur : ℕ} {sts : List DRWorker} {w : ℕ} {sts' : List DRWorker},
      drRound inp cur sts w = .ok sts' → (∀ st ∈ sts, Q st) →
      ∀ st' ∈ sts', Q st' := by
  intro cur sts
  induction sts with
  | nil =>
      intro w sts' h hQ st' hst'
      rw [drRound] at h
      simp only [Res.ok.injEq] at h
      subst h
      exact absurd hst' (List.not_mem_nil st')
  | cons st rest ih =>
      intro w sts' h hQ st' hst'
      rw [drRound] at h
      rcases Res.bind_eq_ok h with ⟨st₁, hw, h₂⟩
      rcases Res.bind_eq_ok h₂ with ⟨rest₁, hr, h₃⟩
      simp only [Res.ok.injEq] at h₃
      subst h₃
      rcases List.mem_cons.mp hst' with h' | h'
      · subst h'
        exact hstep cur _ st st' hw (hQ st (by simp))
      · exact ih hr (fun s hs => hQ s (by simp [hs])) st' h'

theorem drRound_length {inp : DRInput} :
    ∀ {cur : ℕ} {sts : List DRWorker} {w : ℕ} {sts' : List DRWorker},
      drRound inp cur sts w = .ok sts' → sts'.length = sts.length := by
  intro cur sts
  induction sts with
  | nil =>
      intro w sts' h
      rw [drRound] at h
      simp only [Res.ok.injEq] at h
      subst h
      rfl
  | cons st rest ih =>
      intro w sts' h
      rw [drRound] at h
      rcases Res.bind_eq_ok h with ⟨st₁, hw, h₂⟩
      rcases Res.bind_eq_ok h₂ with ⟨rest₁, hr, h₃⟩
      simp only [Res.ok.injEq] at h₃
      subst h₃
      simp [ih hr]

theorem drRound_ne_oob {inp : DRInput}
    (hne : ∀ l ∈ inp.targetNodes, l ≠ [])
    (hN : inp.targetNodes.length ≤ inp.targetNodes.length) :
    ∀ {cur : ℕ} (sts : List DRWorker) (w : ℕ),
      w + sts.length ≤ inp.numOmp → drRound inp cur sts w ≠ .oob := by
  intro cur sts
  induction sts with
  | nil => intro w _; simp [drRound]
  | cons st rest ih =>
      intro w hbound
      rw [drRound]
      refine Res.bind_ne_oob (drWorkerRound_ne_oob hne ?_) (fun st₁ => ?_)
      · intro i hi
        exact mem_chunkNodes_lt inp.numOmp inp.targetNodes.length w i
          (by simp at hbound; omega) hi
      · exact Res.bind_ne_oob (ih (w + 1) (by simp at hbound ⊢; omega))
          (fun rest₁ => by simp)

theorem drLoop_pred {inp : DRInput} (Q : DRWorker → Prop)
    (hstep : ∀ (cur : ℕ) (nodes : List ℕ) (st st' : DRWorker),
      drWorkerRound inp cur nodes st = .ok st' → Q st → Q st') :
    ∀ (fuel : ℕ) {sts sts' : List DRWorker},
      drLoop inp fuel sts = .ok sts' → (∀ st ∈ sts, Q st) →
      ∀ st' ∈ sts', Q st' := by
  intro fuel
  induction fuel with
  | zero => intro sts sts' h _; exact absurd h (by simp [drLoop])
  | succ f ih =>
      intro sts sts' h hQ
      rw [drLoop] at h
      rcases Res.bind_eq_ok h with ⟨sts₁, hr, h₂⟩
      have h₁ := drRound_pred Q hstep hr hQ
      by_cases hc : inp.initialEnum + (sts₁.map DRWorker.numElocal).sum <
          inp.targetEnum
      · rw [if_pos hc] at h₂
        exact ih h₂ h₁
      · rw [if_neg hc] at h₂
        simp only [Res.ok.injEq] at h₂
        subst h₂
        exact h₁

theorem drLoop_length {inp : DRInput} :
    ∀ (fuel : ℕ) {sts sts' : List DRWorker},
      drLoop inp fuel sts = .ok sts' → sts'.length = sts.length := by
  intro fuel
  induction fuel with
  | zero => intro sts sts' h; exact absurd h (by simp [drLoop])
  | succ f ih =>
      intro sts sts' h
      rw [drLoop] at h
      rcases Res.bind_eq_ok h with ⟨sts₁, hr, h₂⟩
      by_cases hc : inp.initialEnum + (sts₁.map DRWorker.numElocal).sum <
          inp.targetEnum
      · rw [if_pos hc] at h₂
        exact (ih h₂).trans (drRound_length hr)
      · rw [if_neg hc] at h₂
        simp only [Res.ok.injEq] at h₂
        subst h₂
        exact drRound_length hr

theorem drLoop_target {inp : DRInput} :
    ∀ (fuel : ℕ) {sts sts' : List DRWorker},
      drLoop inp fuel sts = .ok sts' →
      inp.targetEnum ≤ inp.initialEnum +
        (sts'.map DRWorker.numElocal).sum := by
  intro fuel
  induction fuel with
  | zero => intro sts sts' h; exact absurd h (by simp [drLoop])
  | succ f ih =>
      intro sts sts' h
      rw [drLoop] at h
      rcases Res.bind_eq_ok h with ⟨sts₁, _, h₂⟩
      by_cases hc : inp.initialEnum + (sts₁.map DRWorker.numElocal).sum <
          inp.targetEnum
      · rw [if_pos hc] at h₂
        exact ih h₂
      · rw [if_neg hc] at h₂
        simp only [Res.ok.injEq] at h₂
        subst h₂
        omega

theorem drLoop_ne_oob {inp : DRInput}
    (hne : ∀ l ∈ inp.targetNodes, l ≠ []) :
    ∀ (fuel : ℕ) (sts : List DRWorker), sts.length ≤ inp.numOmp →
      drLoop inp fuel sts ≠ .oob := by
  intro fuel
  induction fuel with
  | zero => intro sts _; simp [drLoop]
  | succ f ih =>
      intro sts hlen
      rw [drLoop]
      refine Res.bind_ne_oob' (drRound_ne_oob hne le_rfl sts 0 (by omega))
        (fun sts₁ heq => ?_)
      have hlen₁ : sts₁.length ≤ inp.numOmp :=
        (drRound_length heq).le.trans' le_rfl |>.trans hlen
      show (if inp.initialEnum + (List.map DRWorker.numElocal sts₁).sum <
          inp.targetEnum then drLoop inp f sts₁ else Res.ok sts₁) ≠ Res.oob
      split
      · exact ih sts₁ hlen₁
      · simp

theorem drFill_split (t : ℕ) (sts : List DRWorker) :
    ∀ (arr : List ℕ) (acc : List (ℕ × ℕ)),
      ∃ rest, drFill acc t sts arr = acc ++ rest ∧
        ∀ e ∈ rest, ∃ w, e ∈ (sts.getD w default).localEdges := by
  intro arr
  induction arr with
  | nil =>
      intro acc
      exact ⟨[], by simp [drFill], by simp⟩
  | cons w arr ih =>
      intro acc
      rcases ih (acc ++ ((sts.getD w default).localEdges.take
          (sts.getD w default).numElocal).take (t - acc.length)) with
        ⟨rest, heq, hmem⟩
      refine ⟨((sts.getD w default).localEdges.take
          (sts.getD w default).numElocal).take (t - acc.length) ++ rest,
        ?_, ?_⟩
      · rw [drFill, List.foldl_cons, ← List.append_assoc]
        exact heq
      · intro e he
        rcases List.mem_append.mp he with h' | h'
        · exact ⟨w, List.take_subset _ _ (List.take_subset _ _ h')⟩
        · exact hmem e h'

theorem drFill_length (t : ℕ) (sts : List DRWorker) :
    ∀ (arr : List ℕ) (acc : List (ℕ × ℕ)), acc.length ≤ t →
      (drFill acc t sts arr).length =
        min t (acc.length + (arr.map (fun w =>
          ((sts.getD w default).localEdges.take
            (sts.getD w default).numElocal).length)).sum) := by
  intro arr
  induction arr with
  | nil =>
      intro acc hle
      rw [drFill]
      simp only [List.foldl_nil, List.map_nil, List.sum_nil, Nat.add_zero]
      omega
  | cons w arr ih =>
      intro acc hle
      rw [drFill, List.foldl_cons]
      have hstep := ih (acc ++ ((sts.getD w default).localEdges.take
          (sts.getD w default).numElocal).take (t - acc.length))
        (by rw [List.length_append, List.length_take]; omega)
      rw [drFill] at hstep
      rw [hstep, List.length_append, List.length_take, List.map_cons,
        List.sum_cons]
      omega

theorem sum_map_getD_range {α : Type} (d : α) (f : α → ℕ) :
    ∀ (l : List α),
      ((List.range l.length).map (fun w => f (l.getD w d))).sum =
        (l.map f).sum := by
  intro l
  induction l with
  | nil => rfl
  | cons x xs ih =>
      rw [List.length_cons, List.range_succ_eq_map, List.map_cons,
        List.map_map, List.sum_cons, List.map_cons, List.sum_cons]
      congr 1

/-- C3: every successful distance-rule call writes exactly
`existing_edge_count + requested_new_edge_count` edges: the pre-existing
edges first in their given order, the generated edges appended, the
final count never over or under the target. -/
theorem claim_C3 (sourceNodes : List ℕ) (targetNodes : List (List ℕ))
    (pAccept : ℕ → ℕ → ℕ → Bool) (numEdges : ℕ) (existing : List (ℕ × ℕ))
    (multigraph : Bool) (mkStream : ℤ → ℕ → ℕ) (msd : ℤ) (numOmp : ℕ)
    (arrival : List ℕ) (fuel : ℕ) (out : List (ℕ × ℕ))
    (hperm : arrival.Perm (List.range numOmp))
    (hok : cdistanceRule sourceNodes targetNodes pAccept numEdges existing
      multigraph mkStream msd numOmp arrival fuel = .ok out) :
    out.length = existing.length + numEdges ∧
    ∃ rest, out = existing ++ rest := by
  rw [cdistanceRule] at hok
  by_cases hc : (targetNodes.map List.length).sum < existing.length + numEdges
  · rw [if_pos hc] at hok
    exact absurd hok (by simp)
  · rw [if_neg hc] at hok
    rcases Res.bind_eq_ok hok with ⟨sts, hloop, hout⟩
    simp only [Res.ok.injEq] at hout
    subst hout
    have hwinv : ∀ st ∈ sts, WInv multigraph st := by
      refine drLoop_pred (WInv multigraph)
        (fun cur nodes st st' h hQ => drWorkerRound_winv h hQ) fuel hloop ?_
      intro st hst
      rw [List.mem_map] at hst
      rcases hst with ⟨w, _, rfl⟩
      exact ⟨rfl, by simp, fun _ => rfl⟩
    have hlen : sts.length = numOmp := by
      have := drLoop_length fuel hloop
      simpa using this
    have htarget : existing.length + numEdges ≤
        existing.length + (sts.map DRWorker.numElocal).sum :=
      drLoop_target fuel hloop
    have hfill := drFill_length (existing.length + numEdges) sts arrival
      existing (by omega)
    have hmapeq : arrival.map (fun w =>
        ((sts.getD w default).localEdges.take
          (sts.getD w default).numElocal).length) =
        arrival.map (fun w => (sts.getD w default).numElocal) := by
      refine List.map_congr_left ?_
      intro w hw
      have hwlt : w < sts.length := by
        rw [hlen]
        have := hperm.mem_iff.mp hw
        rw [List.mem_range] at this
        exact this
      have hst : sts.getD w default ∈ sts := getD_mem_of_lt default sts w hwlt
      rcases hwinv _ hst with ⟨he1, he2, _⟩
      rw [List.length_take]
      omega
    have hsum : (arrival.map (fun w => (sts.getD w default).numElocal)).sum =
        (sts.map DRWorker.numElocal).sum := by
      have hperm' : (arrival.map (fun w => (sts.getD w default).numElocal)).sum
          = ((List.range numOmp).map
              (fun w => (sts.getD w default).numElocal)).sum :=
        ((hperm.map _).sum_eq)
      rw [hperm', ← hlen]
      exact sum_map_getD_range default DRWorker.numElocal sts
    constructor
    · rw [hfill, hmapeq, hsum]
      omega
    · rcases drFill_split (existing.length + numEdges) sts arrival existing
        with ⟨rest, heq, _⟩
      exact ⟨rest, heq⟩

/-- Witness for C3: a concrete two-worker multigraph run producing
exactly the two requested edges. -/
theorem claim_C3_witness :
    (([(0, 1), (1, 0)] : List (ℕ × ℕ)).length =
      ([] : List (ℕ × ℕ)).length + 2) ∧
    ∃ rest, ([(0, 1), (1, 0)] : List (ℕ × ℕ)) = [] ++ rest :=
  claim_C3 [0, 1] [[1], [0]] (fun _ _ _ => true) 2 [] true
    (fun _ _ => 0) 0 2 [0, 1] 10 [(0, 1), (1, 0)] (by decide) (by decide)

/-- C5: every edge generated by the distance-rule sampler pairs a source
`source_nodes[i]` with a target drawn from that node's candidate list
`target_nodes[i]`, and the target always differs from the source. -/
theorem claim_C5 (sourceNodes : List ℕ) (targetNodes : List (List ℕ))
    (pAccept : ℕ → ℕ → ℕ → Bool) (numEdges : ℕ) (existing : List (ℕ × ℕ))
    (multigraph : Bool) (mkStream : ℤ → ℕ → ℕ) (msd : ℤ) (numOmp : ℕ)
    (arrival : List ℕ) (fuel : ℕ) (out : List (ℕ × ℕ))
    (hok : cdistanceRule sourceNodes targetNodes pAccept numEdges existing
      multigraph mkStream msd numOmp arrival fuel = .ok out) :
    ∀ e ∈ out.drop existing.length, ∃ i, i < targetNodes.length ∧
      e.1 = sourceNodes.getD i 0 ∧ e.2 ∈ targetNodes.getD i [] ∧
      e.2 ≠ e.1 := by
  rw [cdistanceRule] at hok
  by_cases hc : (targetNodes.map List.length).sum < existing.length + numEdges
  · rw [if_pos hc] at hok
    exact absurd hok (by simp)
  · rw [if_neg hc] at hok
    rcases Res.bind_eq_ok hok with ⟨sts, hloop, hout⟩
    simp only [Res.ok.injEq] at hout
    subst hout
    have hedges : ∀ st ∈ sts,
        EdgesOk (mkDRInput sourceNodes targetNodes pAccept multigraph
          numEdges existing numOmp fuel) st := by
      refine drLoop_pred _
        (fun cur nodes st st' h hQ => drWorkerRound_edges h hQ) fuel hloop ?_
      intro st hst
      rw [List.mem_map] at hst
      rcases hst with ⟨w, _, rfl⟩
      exact ⟨by simp, by simp⟩
    intro e he
    rcases drFill_split (existing.length + numEdges) sts arrival existing
      with ⟨rest, heq, hmem⟩
    rw [heq, List.drop_left] at he
    rcases hmem e he with ⟨w, hw⟩
    rcases Nat.lt_or_ge w sts.length with hwlt | hwge
    · have hst : sts.getD w default ∈ sts := getD_mem_of_lt default sts w hwlt
      have hvalid := (hedges _ hst).1 e hw
      rcases hvalid with ⟨i, h1, h2, h3⟩
      simp only [mkDRInput] at h1 h2
      have hilt : i < targetNodes.length := by
        by_contra hge
        rw [List.getD_eq_default _ _ (by omega)] at h2
        exact List.not_mem_nil _ h2
      exact ⟨i, hilt, h1, h2, h3⟩
    · rw [List.getD_eq_default _ _ hwge] at hw
      exact absurd hw (List.not_mem_nil e)

/-- Witness for C5 at the same concrete run as C3. -/
theorem claim_C5_witness :
    ∃ i, i < ([[1], [0]] : List (List ℕ)).length ∧
      ((0 : ℕ), (1 : ℕ)).1 = ([0, 1] : List ℕ).getD i 0 ∧
      ((0 : ℕ), (1 : ℕ)).2 ∈ ([[1], [0]] : List (List ℕ)).getD i [] ∧
      ((0 : ℕ), (1 : ℕ)).2 ≠ ((0 : ℕ), (1 : ℕ)).1 :=
  claim_C5 [0, 1] [[1], [0]] (fun _ _ _ => true) 2 [] true
    (fun _ _ => 0) 0 2 [0, 1] 10 [(0, 1), (1, 0)] (by decide)
    (0, 1) (by decide)

/-- C10: with every candidate list non-empty, the index `rnd` of every
`local_tgts[rnd]` read is within bounds (the call never reaches the
out-of-bounds outcome); with an empty candidate list among the
processed nodes, the `size_t` bound `nln - 1` wraps to `2^64 - 1` and
the read is out of bounds, as a concrete run shows. -/
theorem claim_C10 (sourceNodes : List ℕ) (targetNodes : List (List ℕ))
    (pAccept : ℕ → ℕ → ℕ → Bool) (numEdges : ℕ) (existing : List (ℕ × ℕ))
    (multigraph : Bool) (mkStream : ℤ → ℕ → ℕ) (msd : ℤ) (numOmp : ℕ)
    (arrival : List ℕ) (fuel : ℕ)
    (hne : ∀ l ∈ targetNodes, l ≠ []) :
    cdistanceRule sourceNodes targetNodes pAccept numEdges existing
      multigraph mkStream msd numOmp arrival fuel ≠ Res.oob ∧
    rndTargetUpper 0 = U64 - 1 ∧
    cdistanceRule [0, 1] [[1], []] (fun _ _ _ => false) 1 [] false
      (fun _ _ => 0) 0 1 [0] 10 = Res.oob := by
  refine ⟨?_, ?_, by decide⟩
  · rw [cdistanceRule]
    split
    · simp
    · refine Res.bind_ne_oob (drLoop_ne_oob hne fuel _ (by simp [mkDRInput]))
        (fun sts => by simp)
  · rw [rndTargetUpper, Nat.zero_add]
    exact Nat.mod_eq_of_lt (by rw [U64]; omega)

/-- Witness for C10: the non-empty-lists half applied to a concrete
feasible input. -/
theorem claim_C10_witness :
    cdistanceRule [0, 1] [[1], [0]] (fun _ _ _ => true) 2 []
      true (fun _ _ => 0) 0 2 [0, 1] 10 ≠ Res.oob ∧
    rndTargetUpper 0 = U64 - 1 ∧
    cdistanceRule [0, 1] [[1], []] (fun _ _ _ => false) 1 [] false
      (fun _ _ => 0) 0 1 [0] 10 = Res.oob :=
  claim_C10 [0, 1] [[1], [0]] (fun _ _ _ => true) 2 [] true
    (fun _ _ => 0) 0 2 [0, 1] 10 (by decide)

/-!
## Lemmas about the degree-model sampler
-/

theorem fillSlots_length {lo hi otherEnd : ℕ} :
    ∀ {fuel : ℕ} {buf : List ℕ} {pos need : ℕ} {g : Rng}
      {b : List ℕ} {g' : Rng},
      fillSlots lo hi otherEnd buf pos need g fuel = some (b, g') →
      b.length = buf.length := by
  intro fuel
  induction fuel with
  | zero =>
      intro buf pos need g b g' h
      cases need with
      | zero =>
          rw [fillSlots] at h
          simp only [Option.some.injEq, Prod.mk.injEq] at h
          rw [← h.1]
      | succ n => exact absurd h (by rw [fillSlots]; simp)
  | succ f ih =>
      intro buf pos need g b g' h
      cases need with
      | zero =>
          rw [fillSlots] at h
          simp only [Option.some.injEq, Prod.mk.injEq] at h
          rw [← h.1]
      | succ n =>
          rw [fillSlots] at h
          split at h
          · exact ih h
          · rw [ih h, List.length_set]

theorem fillSlots_spec {lo hi otherEnd : ℕ} :
    ∀ {fuel : ℕ} {buf : List ℕ} {pos need : ℕ} {g : Rng}
      {b : List ℕ} {g' : Rng},
      fillSlots lo hi otherEnd buf pos need g fuel = some (b, g') →
      pos + need ≤ buf.length →
      (∀ j, j < pos ∨ pos + need ≤ j → b.getD j 0 = buf.getD j 0) ∧
      (∀ j, pos ≤ j → j < pos + need → b.getD j 0 ≠ otherEnd) := by
  intro fuel
  induction fuel with
  | zero =>
      intro buf pos need g b g' h _
      cases need with
      | zero =>
          rw [fillSlots] at h
          simp only [Option.some.injEq, Prod.mk.injEq] at h
          exact ⟨fun j _ => by rw [h.1], fun j h1 h2 => by omega⟩
      | succ n => exact absurd h (by rw [fillSlots]; simp)
  | succ f ih =>
      intro buf pos need g b g' h hlen
      cases need with
      | zero =>
          rw [fillSlots] at h
          simp only [Option.some.injEq, Prod.mk.injEq] at h
          exact ⟨fun j _ => by rw [h.1], fun j h1 h2 => by omega⟩
      | succ n =>
          rw [fillSlots] at h
          split at h
          · exact ih h hlen
          · next hne =>
              have hlen2 : (pos + 1) + n ≤
                  (buf.set pos (uniformInt lo hi g).1).length := by
                rw [List.length_set]; omega
              rcases ih h hlen2 with ⟨hframe, hfill⟩
              constructor
              · intro j hj
                rw [hframe j (by omega)]
                exact getD_set_ne _ _ _ _ _ (by omega)
              · intro j h1 h2
                rcases Nat.eq_or_lt_of_le h1 with h3 | h3
                · rw [← h3, hframe pos (by omega),
                    getD_set_self _ _ _ _ (by omega)]
                  exact hne
                · exact hfill j (by omega) (by omega)

theorem take_eq_of_getD {l₁ l₂ : List ℕ} {k : ℕ} (h1 : k ≤ l₁.length)
    (h2 : k ≤ l₂.length) (hj : ∀ j, j < k → l₁.getD j 0 = l₂.getD j 0) :
    l₁.take k = l₂.take k := by
  apply List.ext_getElem?
  intro j
  rw [List.getElem?_take, List.getElem?_take]
  split
  · next hjk =>
      have e1 : l₁[j]? = some (l₁.getD j 0) := by
        rw [List.getElem?_eq_getElem (by omega), List.getD_eq_getElem?_getD,
          List.getElem?_eq_getElem (by omega)]
        rfl
      have e2 : l₂[j]? = some (l₂.getD j 0) := by
        rw [List.getElem?_eq_getElem (by omega), List.getD_eq_getElem?_getD,
          List.getElem?_eq_getElem (by omega)]
        rfl
      rw [e1, e2, hj j hjk]
  · rfl

theorem getD_mem_take {l : List ℕ} {j k : ℕ} (hjk : j < k)
    (hk : k ≤ l.length) : l.getD j 0 ∈ l.take k := by
  have hlen : j < (l.take k).length := by
    rw [List.length_take]; omega
  have : (l.take k).getD j 0 = l.getD j 0 := by
    rw [List.getD_eq_getElem?_getD, List.getElem?_take, if_pos hjk,
      List.getD_eq_getElem?_getD]
  rw [← this]
  exact getD_mem_of_lt 0 (l.take k) j hlen

theorem mem_ne_of_getD {l : List ℕ} {x : ℕ}
    (h : ∀ j, j < l.length → l.getD j 0 ≠ x) : ∀ v ∈ l, v ≠ x := by
  intro v hv
  rcases List.getElem_of_mem hv with ⟨j, hjl, rfl⟩
  have : l.getD j 0 = l[j] := by
    rw [List.getD_eq_getElem?_getD, List.getElem?_eq_getElem hjl]
    rfl
  rw [← this]
  exact h j hjl

/-- The multigraph branch of the `_gen_edge_complement` loop starting
from an empty prefix: one filling round, all slots fresh. -/
theorem gecLoop_mg {lo hi otherEnd target : ℕ} {fuel : ℕ} {buf : List ℕ}
    {m : Finset ℕ} {g : Rng} {res : List ℕ × Rng}
    (hlen : buf.length = target)
    (h : gecLoop lo hi otherEnd target true fuel buf 0 m g = some res) :
    res.1.length = target ∧ ∀ v ∈ res.1, v ≠ otherEnd := by
  cases target with
  | zero =>
      rw [gecLoop.eq_def] at h
      simp only [] at h
      rw [if_neg (by omega)] at h
      simp only [Option.some.injEq] at h
      subst h
      have : buf = [] := List.length_eq_zero.mp hlen
      subst this
      exact ⟨rfl, by simp⟩
  | succ t =>
      rw [gecLoop.eq_def] at h
      simp only [] at h
      rw [if_pos (by omega)] at h
      cases fuel with
      | zero => exact absurd h (by simp)
      | succ f =>
          simp only [Nat.sub_zero] at h
          rcases hfs : fillSlots lo hi otherEnd buf 0 (t + 1) g (f + 1) with
            _ | p
          · rw [hfs] at h
            exact absurd h (by simp)
          · rw [hfs] at h
            simp only [if_pos] at h
            rw [gecLoop.eq_def] at h
            simp only [] at h
            rw [if_neg (by omega)] at h
            simp only [Option.some.injEq] at h
            subst h
            have hl := fillSlots_length hfs
            have hs := fillSlots_spec hfs (by omega)
            refine ⟨by rw [hl, hlen], ?_⟩
            apply mem_ne_of_getD
            intro j hj
            exact hs.2 j (by omega) (by rw [hl, hlen] at hj; omega)

/-- Invariant of the simple-graph `_gen_edge_complement` loop starting
from an empty seeded prefix: the compacted prefix is duplicate-free,
self-avoiding, and mirrored exactly by the hash map. -/
def GInv (otherEnd target : ℕ) (buf : List ℕ) (ecur : ℕ)
    (m : Finset ℕ) : Prop :=
  buf.length = target ∧ ecur = m.card ∧ m = (buf.take ecur).toFinset ∧
  (buf.take ecur).Nodup ∧ (∀ v ∈ buf.take ecur, v ≠ otherEnd) ∧
  ecur ≤ target

theorem gecLoop_simple {lo hi otherEnd target : ℕ} :
    ∀ {fuel : ℕ} {buf : List ℕ} {ecur : ℕ} {m : Finset ℕ} {g : Rng}
      {res : List ℕ × Rng},
      gecLoop lo hi otherEnd target false fuel buf ecur m g = some res →
      GInv otherEnd target buf ecur m →
      res.1.length = target ∧ res.1.Nodup ∧ ∀ v ∈ res.1, v ≠ otherEnd := by
  intro fuel
  induction fuel with
  | zero =>
      intro buf ecur m g res h hinv
      rw [gecLoop] at h
      split at h
      · exact absurd h (by simp)
      · next hge =>
          simp only [Option.some.injEq] at h
          subst h
          rcases hinv with ⟨h1, _, _, h4, h5, h6⟩
          have hecur : ecur = target := by omega
          subst hecur
          rw [← h1, List.take_length] at h4 h5
          exact ⟨h1, h4, h5⟩
  | succ f ih =>
      intro buf ecur m g res h hinv
      rcases hinv with ⟨h1, h2, h3, h4, h5, h6⟩
      rw [gecLoop] at h
      split at h
      · next hlt =>
          rcases hfs : fillSlots lo hi otherEnd buf ecur (target - ecur) g
            (f + 1) with _ | ⟨b₁, g₁⟩
          · rw [hfs] at h
            exact absurd h (by simp)
          · rw [hfs] at h
            simp only [Bool.false_eq_true, if_false] at h
            have hflen : b₁.length = target := by
              rw [fillSlots_length hfs, h1]
            have hfsp := fillSlots_spec hfs (by omega)
            -- the prefix of the filled buffer is the old compacted prefix
            have htake : b₁.take ecur = buf.take ecur :=
              take_eq_of_getD (by omega) (by omega)
                (fun j hj => hfsp.1 j (Or.inl hj))
            -- every entry of the filled buffer avoids `otherEnd`
            have hall : ∀ v ∈ b₁, v ≠ otherEnd := by
              apply mem_ne_of_getD
              intro j hj
              rcases Nat.lt_or_ge j ecur with hje | hje
              · rw [hfsp.1 j (Or.inl hje)]
                intro hx
                exact h5 (buf.getD j 0) (getD_mem_take hje (by omega)) hx
              · exact hfsp.2 j hje (by rw [hflen] at hj; omega)
            -- the hash map matches the prefix of the filled buffer
            have h3' : m = (b₁.take ecur).toFinset := by rw [htake]; exact h3
            have h4' : (b₁.take ecur).Nodup := by rw [htake]; exact h4
            have hmemp : ∀ j, j < ecur → b₁.getD j 0 ∈ m := by
              intro j hj
              rw [h3']
              exact List.mem_toFinset.mpr (getD_mem_take hj (by omega))
            -- run the compaction: skip the known prefix, then compact
            have hskip : unique1d b₁ m =
                uniqueAux 0 (b₁.length - ecur) b₁ m ecur ecur := by
              rw [unique1d, ← h2]
              have hsplit : b₁.length = (b₁.length - ecur) + ecur := by omega
              conv_lhs => rw [hsplit]
              have := uniqueAux_skip 0 ecur 0 (b₁.length - ecur) b₁ m ecur
                (by omega) (fun j _ hj' => hmemp j (by omega))
              rw [Nat.zero_add] at this
              exact this
            rw [hskip] at h
            have hcmp := uniqueAux_compact 0 (b₁.length - ecur) b₁ m
              ecur ecur le_rfl (by omega) h4' h3'
            have hlen₂ :
                (uniqueAux 0 (b₁.length - ecur) b₁ m ecur ecur).1.length =
                  target := by
              rw [uniqueAux_length, hflen]
            have hcard₂ := uniqueAux_card 0 (b₁.length - ecur) b₁ m ecur ecur h2
            refine ih h ⟨hlen₂, hcard₂, hcmp.2.1, hcmp.1, ?_, by
              have := hcmp.2.2
              omega⟩
            intro v hv
            exact hall v
              (uniqueAux_subset 0 _ _ _ _ _ v (List.take_subset _ _ hv))
      · next hge =>
          simp only [Option.some.injEq] at h
          subst h
          have hecur : ecur = target := by omega
          subst hecur
          rw [← h1, List.take_length] at h4 h5
          exact ⟨h1, h4, h5⟩

/-- `_gen_edge_complement` on a node whose seeding loop seeds nothing:
the returned buffer has exactly `degree` entries, none equal to the
source, pairwise distinct in simple-graph mode. -/
theorem genEdgeComplement_spec {g : Rng} {nodes : List ℕ}
    {otherEnd degree : ℕ} {existing : List (List ℕ)} {multigraph : Bool}
    {fuel : ℕ} {res : List ℕ} {g' : Rng}
    (hpre : seedTargets existing otherEnd = some [])
    (hok : genEdgeComplement g nodes otherEnd degree existing multigraph
      fuel = some (res, g')) :
    res.length = degree ∧ (∀ t ∈ res, t ≠ otherEnd) ∧
    (multigraph = false → res.Nodup) := by
  rw [genEdgeComplement] at hok
  rcases h1 : nodes.min? with _ | lo
  · rw [h1] at hok
    rcases h2 : nodes.max? with _ | hi <;> rw [h2] at hok <;>
      exact absurd hok (by simp)
  · rw [h1] at hok
    rcases h2 : nodes.max? with _ | hi
    · rw [h2] at hok
      exact absurd hok (by simp)
    · rw [h2, hpre] at hok
      simp only [List.nil_append, List.length_nil, Nat.zero_add] at hok
      cases multigraph with
      | true =>
          have := gecLoop_mg (List.length_replicate degree 0) hok
          exact ⟨this.1, fun t ht => this.2 t ht, fun hfalse => by
            exact absurd hfalse (by simp)⟩
      | false =>
          have := gecLoop_simple hok
            ⟨List.length_replicate degree 0, by simp, by simp, by simp,
              by simp, by omega⟩
          exact ⟨this.1, this.2.2, fun _ => this.2.1⟩

/-!
## Lemmas about the `_gen_edges` shared output buffer

The buffer is a fold of per-worker write events.  The analysis rests on
three facts: a position absent from an event list is untouched
(`applyEvents_frame`), a position present in an event list gets a value
independent of the incoming buffer (`applyEvents_of_mem_keys`), and a
position all of whose events agree on one value reads that value
(`applyEvents_agree`).
-/

theorem applyEvents_frame {p : ℕ} :
    ∀ {evs : List (ℕ × ℕ)} {b : ℕ → ℕ}, p ∉ evs.map Prod.fst →
      applyEvents b evs p = b p := by
  intro evs
  induction evs with
  | nil => intro b _; rfl
  | cons e t ih =>
      intro b hp
      rw [List.map_cons] at hp
      rw [applyEvents, List.foldl_cons]
      have : (List.foldl (fun b e => Function.update b e.1 e.2)
          (Function.update b e.1 e.2) t) p = Function.update b e.1 e.2 p :=
        ih (fun h => hp (List.mem_cons_of_mem _ h))
      rw [this, Function.update_noteq (fun h => hp (by rw [h]; simp))]

theorem applyEvents_of_mem_keys {p : ℕ} :
    ∀ {evs : List (ℕ × ℕ)} {b b' : ℕ → ℕ}, p ∈ evs.map Prod.fst →
      applyEvents b evs p = applyEvents b' evs p := by
  intro evs
  induction evs with
  | nil => intro b b' hp; exact absurd hp (by simp)
  | cons e t ih =>
      intro b b' hp
      rw [applyEvents, applyEvents, List.foldl_cons, List.foldl_cons]
      by_cases hpt : p ∈ t.map Prod.fst
      · exact ih hpt
      · have hpe : p = e.1 := by
          rw [List.map_cons] at hp
          rcases List.mem_cons.mp hp with h | h
          · exact h
          · exact absurd h hpt
        have h1 : (List.foldl (fun b e => Function.update b e.1 e.2)
            (Function.update b e.1 e.2) t) p = Function.update b e.1 e.2 p :=
          applyEvents_frame hpt
        have h2 : (List.foldl (fun b e => Function.update b e.1 e.2)
            (Function.update b' e.1 e.2) t) p = Function.update b' e.1 e.2 p :=
          applyEvents_frame hpt
        rw [h1, h2, hpe, Function.update_same, Function.update_same]

theorem applyEvents_agree {p v : ℕ} :
    ∀ {evs : List (ℕ × ℕ)} {b : ℕ → ℕ}, (p, v) ∈ evs →
      (∀ v', (p, v') ∈ evs → v' = v) → applyEvents b evs p = v := by
  intro evs
  induction evs with
  | nil => intro b hp _; exact absurd hp (by simp)
  | cons e t ih =>
      intro b hp hagree
      rw [applyEvents, List.foldl_cons]
      by_cases hpt : p ∈ t.map Prod.fst
      · rcases List.mem_map.mp hpt with ⟨e', he', hkey⟩
        have : (p, e'.2) ∈ t := by
          have : e' = (p, e'.2) := by
            rw [← hkey]
          rw [← this]
          exact he'
        have hv : e'.2 = v := hagree e'.2 (List.mem_cons_of_mem _ this)
        exact ih (hv ▸ this) (fun v' hv' =>
          hagree v' (List.mem_cons_of_mem _ hv'))
      · have hkey : (applyEvents (Function.update b e.1 e.2) t) p =
            Function.update b e.1 e.2 p := applyEvents_frame hpt
        rw [applyEvents] at hkey
        rw [hkey]
        rcases List.mem_cons.mp hp with h | h
        · rw [← h, Function.update_same]
        · exact absurd (List.mem_map_of_mem Prod.fst h) hpt

theorem applyEvents_append (b : ℕ → ℕ) (l₁ l₂ : List (ℕ × ℕ)) :
    applyEvents b (l₁ ++ l₂) = applyEvents (applyEvents b l₁) l₂ :=
  List.foldl_append _ _ _ _

theorem foldl_applyEvents (evs : ℕ → List (ℕ × ℕ)) :
    ∀ (order : List ℕ) (b : ℕ → ℕ),
      order.foldl (fun b w => applyEvents b (evs w)) b =
        applyEvents b ((order.map evs).flatten) := by
  intro order
  induction order with
  | nil => intro b; rfl
  | cons w rest ih =>
      intro b
      rw [List.foldl_cons, List.map_cons, List.flatten_cons,
        applyEvents_append]
      exact ih _

theorem blockEvents_mem {idx : ℕ} {degrees : List ℕ} {n : ℕ}
    {res : List ℕ} {p v : ℕ} :
    (p, v) ∈ blockEvents idx degrees n res ↔
    ∃ j, j < degrees.getD n 0 ∧
      ((p = 2 * (degStart degrees n + j) + idx ∧ v = n) ∨
       (p = 2 * (degStart degrees n + j) + 1 - idx ∧ v = res.getD j 0)) := by
  rw [blockEvents]
  simp only [List.mem_flatMap, List.mem_range, List.mem_cons,
    List.mem_singleton, List.not_mem_nil, or_false, Prod.mk.injEq]

theorem runNodes_nodes {secondNodes degrees : List ℕ}
    {existing : List (List ℕ)} {multigraph : Bool} {fuel : ℕ} :
    ∀ {ns : List ℕ} {g : Rng} {rs : List (ℕ × List ℕ)} {g' : Rng},
      runNodes secondNodes degrees existing multigraph fuel ns g =
        some (rs, g') →
      (∀ x ∈ rs, x.1 ∈ ns) ∧ (∀ n ∈ ns, ∃ r, (n, r) ∈ rs) := by
  intro ns
  induction ns with
  | nil =>
      intro g rs g' h
      rw [runNodes] at h
      simp only [Option.some.injEq, Prod.mk.injEq] at h
      rcases h with ⟨rfl, _⟩
      exact ⟨by simp, by simp⟩
  | cons n ns ih =>
      intro g rs g' h
      rw [runNodes] at h
      rcases hgc : genEdgeComplement g secondNodes n (degrees.getD n 0)
        existing multigraph fuel with _ | ⟨res, g₁⟩
      · rw [hgc] at h
        exact absurd h (by simp)
      · rw [hgc] at h
        simp only [] at h
        rcases hrn : runNodes secondNodes degrees existing multigraph fuel
          ns g₁ with _ | ⟨rest, g₂⟩
        · rw [hrn] at h
          exact absurd h (by simp)
        · rw [hrn] at h
          simp only [Option.some.injEq, Prod.mk.injEq] at h
          rcases h with ⟨rfl, _⟩
          rcases ih hrn with ⟨hfwd, hbwd⟩
          constructor
          · intro x hx
            rcases List.mem_cons.mp hx with h | h
            · rw [h]
              exact List.mem_cons_self n ns
            · exact List.mem_cons_of_mem _ (hfwd x h)
          · intro n' hn'
            rcases List.mem_cons.mp hn' with h | h
            · exact ⟨res, by rw [h]; exact List.mem_cons_self _ _⟩
            · rcases hbwd n' h with ⟨r, hr⟩
              exact ⟨r, List.mem_cons_of_mem _ hr⟩

theorem sum_take_succ (l : List ℕ) (n : ℕ) :
    (l.take (n + 1)).sum = (l.take n).sum + l.getD n 0 := by
  rw [List.take_succ, List.sum_append]
  congr 1
  rcases Nat.lt_or_ge n l.length with h | h
  · rw [List.getElem?_eq_getElem h, List.getD_eq_getElem?_getD,
      List.getElem?_eq_getElem h]
    simp
  · rw [List.getElem?_eq_none h, List.getD_eq_default _ _ h]
    rfl

theorem degStart_succ (degrees : List ℕ) (n : ℕ) :
    degStart degrees (n + 1) = degStart degrees n + degrees.getD n 0 :=
  sum_take_succ degrees n

theorem degStart_mono (degrees : List ℕ) {n n' : ℕ} (h : n ≤ n') :
    degStart degrees n ≤ degStart degrees n' := by
  have hd : degStart degrees n' =
      ((degrees.take n').take n).sum + ((degrees.take n').drop n).sum := by
    rw [← List.sum_append, List.take_append_drop]
    rfl
  rw [hd, List.take_take, Nat.min_eq_left h]
  rw [degStart]
  omega

theorem owner_exists (degrees : List ℕ) :
    ∀ (N q : ℕ), q < (degrees.take N).sum →
      ∃ n, n < N ∧ degStart degrees n ≤ q ∧
        q < degStart degrees n + degrees.getD n 0 := by
  intro N
  induction N with
  | zero => intro q hq; simp at hq
  | succ N ih =>
      intro q hq
      rcases Nat.lt_or_ge q (degrees.take N).sum with h | h
      · rcases ih q h with ⟨n, hn, h1, h2⟩
        exact ⟨n, by omega, h1, h2⟩
      · refine ⟨N, by omega, h, ?_⟩
        have hs := degStart_succ degrees N
        have hq' : q < degStart degrees (N + 1) := hq
        omega

theorem owner_unique (degrees : List ℕ) {n n' q : ℕ}
    (h1 : degStart degrees n ≤ q)
    (h2 : q < degStart degrees n + degrees.getD n 0)
    (h3 : degStart degrees n' ≤ q)
    (h4 : q < degStart degrees n' + degrees.getD n' 0) : n = n' := by
  rcases Nat.lt_trichotomy n n' with h | h | h
  · exfalso
    have := degStart_mono degrees (show n + 1 ≤ n' by omega)
    rw [degStart_succ] at this
    omega
  · exact h
  · exfalso
    have := degStart_mono degrees (show n' + 1 ≤ n by omega)
    rw [degStart_succ] at this
    omega

theorem chunkStart_succ (W N w : ℕ) :
    chunkStart W N (w + 1) = chunkStart W N w + chunkLen W N w := by
  rw [chunkStart, chunkStart, chunkLen]
  have h1 : (w + 1) * (N / W) = w * (N / W) + N / W := by ring
  have h2 : min (w + 1) (N % W) =
      min w (N % W) + (if w < N % W then 1 else 0) := by
    split <;> omega
  omega

theorem chunkStart_last (W N : ℕ) (hW : 1 ≤ W) : chunkStart W N W = N := by
  rw [chunkStart]
  have h1 : N % W < W := Nat.mod_lt N (by omega)
  have h2 : min W (N % W) = N % W := by omega
  have h3 : W * (N / W) + N % W = N := Nat.div_add_mod N W
  omega

theorem chunkStart_mono (W N : ℕ) {w w' : ℕ} (h : w ≤ w') :
    chunkStart W N w ≤ chunkStart W N w' := by
  rw [chunkStart, chunkStart]
  have h1 : w * (N / W) ≤ w' * (N / W) := Nat.mul_le_mul_right _ h
  have h2 : min w (N % W) ≤ min w' (N % W) := by omega
  omega

theorem mem_chunkNodes_iff {W N w n : ℕ} :
    n ∈ chunkNodes W N w ↔
    chunkStart W N w ≤ n ∧ n < chunkStart W N w + chunkLen W N w := by
  rw [chunkNodes]
  simp only [List.mem_map, List.mem_range]
  constructor
  · rintro ⟨j, hj, rfl⟩
    omega
  · rintro ⟨h1, h2⟩
    exact ⟨n - chunkStart W N w, by omega, by omega⟩

theorem exists_chunk (W N n : ℕ) (hW : 1 ≤ W) (hn : n < N) :
    ∃ w, w < W ∧ n ∈ chunkNodes W N w := by
  have haux : ∀ (b : ℕ), chunkStart W N 0 ≤ n → n < chunkStart W N b →
      ∃ w, w < b ∧ chunkStart W N w ≤ n ∧ n < chunkStart W N (w + 1) := by
    intro b
    induction b with
    | zero =>
        intro h0 hb
        exact absurd hb (by
          rw [chunkStart] at h0 ⊢
          omega)
    | succ b ih =>
        intro h0 hb
        rcases Nat.lt_or_ge n (chunkStart W N b) with h | h
        · rcases ih h0 h with ⟨w, hw, hw1, hw2⟩
          exact ⟨w, by omega, hw1, hw2⟩
        · exact ⟨b, by omega, h, hb⟩
  have h0 : chunkStart W N 0 ≤ n := by
    rw [chunkStart]
    simp
  have hlast : n < chunkStart W N W := by
    rw [chunkStart_last W N hW]
    exact hn
  rcases haux W h0 hlast with ⟨w, hw, hw1, hw2⟩
  rw [chunkStart_succ] at hw2
  exact ⟨w, hw, mem_chunkNodes_iff.mpr ⟨hw1, hw2⟩⟩

theorem chunk_unique {W N w w' n : ℕ} (hw : w < W) (hw' : w' < W)
    (h : n ∈ chunkNodes W N w) (h' : n ∈ chunkNodes W N w') : w = w' := by
  rw [mem_chunkNodes_iff] at h h'
  rcases Nat.lt_trichotomy w w' with hlt | heq | hgt
  · exfalso
    have := chunkStart_mono W N (show w + 1 ≤ w' by omega)
    rw [chunkStart_succ] at this
    omega
  · exact heq
  · exfalso
    have := chunkStart_mono W N (show w' + 1 ≤ w by omega)
    rw [chunkStart_succ] at this
    omega

theorem workerEvents_eq {secondNodes degrees : List ℕ}
    {existing : List (List ℕ)} {idx : ℕ} {multigraph : Bool}
    {mkStream : ℤ → ℕ → ℕ} {msd : ℤ} {omp numNodes fuel w : ℕ}
    {E : List (ℕ × ℕ)}
    (h : workerEvents secondNodes degrees existing idx multigraph mkStream
      msd omp numNodes fuel w = some E) :
    ∃ rs g', runNodes secondNodes degrees existing multigraph fuel
      (chunkNodes omp numNodes w)
      (workerRng mkStream (initSeeds omp msd) w) = some (rs, g') ∧
      E = rs.flatMap (fun nr => blockEvents idx degrees nr.1 nr.2) := by
  rw [workerEvents] at h
  rcases hrn : runNodes secondNodes degrees existing multigraph fuel
    (chunkNodes omp numNodes w)
    (workerRng mkStream (initSeeds omp msd) w) with _ | ⟨rs, g'⟩
  · rw [hrn] at h
    exact absurd h (by simp)
  · rw [hrn] at h
    simp only [Option.some.injEq] at h
    exact ⟨rs, g', rfl, h.symm⟩

theorem genEdges_eq {firstNodes degrees secondNodes : List ℕ}
    {existing : List (List ℕ)} {idx : ℕ} {multigraph : Bool}
    {mkStream : ℤ → ℕ → ℕ} {msd : ℤ} {omp : ℕ} {order : List ℕ}
    {fuel : ℕ} {out : List ℕ}
    (hok : genEdges firstNodes degrees secondNodes existing idx multigraph
      mkStream msd omp order fuel = some out) :
    (∀ w, w < omp → (workerEvents secondNodes degrees existing idx
      multigraph mkStream msd omp firstNodes.length fuel w).isSome) ∧
    out = (List.range (2 * (degrees.take firstNodes.length).sum)).map
      (order.foldl (fun b w => applyEvents b
        ((workerEvents secondNodes degrees existing idx multigraph mkStream
          msd omp firstNodes.length fuel w).getD [])) (fun _ => 0)) := by
  rw [genEdges] at hok
  split at hok
  · next hall =>
      simp only [Option.some.injEq] at hok
      rw [List.all_eq_true] at hall
      exact ⟨fun w hw => hall w (List.mem_range.mpr hw), hok.symm⟩
  · exact absurd hok (by simp)

/-- Reading position `2q + idx` of the `_gen_edges` output: it holds the
id of the node owning edge slot `q`. -/
theorem genEdges_value {firstNodes degrees secondNodes : List ℕ}
    {existing : List (List ℕ)} {idx : ℕ} {multigraph : Bool}
    {mkStream : ℤ → ℕ → ℕ} {msd : ℤ} {omp : ℕ} {order : List ℕ}
    {fuel : ℕ} {out : List ℕ}
    (hidx : idx ≤ 1) (homp : 1 ≤ omp)
    (horder : order.Perm (List.range omp))
    (hok : genEdges firstNodes degrees secondNodes existing idx multigraph
      mkStream msd omp order fuel = some out) :
    ∀ q n, degStart degrees n ≤ q →
      q < degStart degrees n + degrees.getD n 0 →
      n < firstNodes.length →
      out.getD (2 * q + idx) 0 = n := by
  rcases genEdges_eq hok with ⟨hall, hout⟩
  intro q n hq1 hq2 hn
  subst hout
  have hqT : q < (degrees.take firstNodes.length).sum := by
    have h1 : q < degStart degrees (n + 1) := by
      rw [degStart_succ]; omega
    have h2 : degStart degrees (n + 1) ≤
        degStart degrees firstNodes.length := degStart_mono degrees (by omega)
    have h3 : degStart degrees firstNodes.length =
        (degrees.take firstNodes.length).sum := rfl
    omega
  have hpos : 2 * q + idx < 2 * (degrees.take firstNodes.length).sum := by
    omega
  rw [List.getD_eq_getElem?_getD, List.getElem?_map,
    List.getElem?_range hpos, Option.map_some', Option.getD_some]
  rw [foldl_applyEvents]
  -- the node's worker and its event for this position
  rcases exists_chunk omp firstNodes.length n homp hn with ⟨w₀, hw₀, hchunk⟩
  rcases Option.isSome_iff_exists.mp (hall w₀ hw₀) with ⟨E₀, hE₀⟩
  rcases workerEvents_eq hE₀ with ⟨rs₀, g₀, hrn₀, hE₀eq⟩
  rcases (runNodes_nodes hrn₀).2 n hchunk with ⟨r₀, hr₀⟩
  have hev : (2 * q + idx, n) ∈
      (workerEvents secondNodes degrees existing idx multigraph mkStream
        msd omp firstNodes.length fuel w₀).getD [] := by
    rw [hE₀, Option.getD_some, hE₀eq]
    rw [List.mem_flatMap]
    refine ⟨(n, r₀), hr₀, ?_⟩
    show (2 * q + idx, n) ∈ blockEvents idx degrees n r₀
    rw [blockEvents_mem]
    exact ⟨q - degStart degrees n, by omega, Or.inl ⟨by omega, rfl⟩⟩
  apply applyEvents_agree
  · rw [List.mem_flatten]
    exact ⟨_, List.mem_map_of_mem _ (horder.mem_iff.mpr
      (List.mem_range.mpr hw₀)), hev⟩
  · intro v' hv'
    rw [List.mem_flatten] at hv'
    rcases hv' with ⟨l, hl, hel⟩
    rcases List.mem_map.mp hl with ⟨w, hworder, rfl⟩
    have hwlt : w < omp := by
      have := horder.mem_iff.mp hworder
      rw [List.mem_range] at this
      exact this
    rcases Option.isSome_iff_exists.mp (hall w hwlt) with ⟨E, hE⟩
    rw [hE, Option.getD_some] at hel
    rcases workerEvents_eq hE with ⟨rs, g', hrn, hEeq⟩
    rw [hEeq, List.mem_flatMap] at hel
    rcases hel with ⟨nr, hnr, hbe⟩
    have hn'chunk : nr.1 ∈ chunkNodes omp firstNodes.length w :=
      (runNodes_nodes hrn).1 nr hnr
    rw [blockEvents_mem] at hbe
    rcases hbe with ⟨j', hj', hcase | hcase⟩
    · have hq' : q = degStart degrees nr.1 + j' := by omega
      have := owner_unique degrees hq1 hq2
        (show degStart degrees nr.1 ≤ q by omega)
        (show q < degStart degrees nr.1 + degrees.getD nr.1 0 by omega)
      rw [hcase.2, this]
    · exfalso
      omega

theorem countP_range (s d : ℕ) :
    ∀ T, (List.range T).countP (fun q => decide (s ≤ q ∧ q < s + d)) =
      min (s + d) T - min s T := by
  intro T
  induction T with
  | zero => simp
  | succ T ih =>
      rw [List.range_succ, List.countP_append, ih]
      by_cases h : s ≤ T ∧ T < s + d
      · have h1 : List.countP (fun q => decide (s ≤ q ∧ q < s + d)) [T] = 1 := by
          simp [List.countP_cons, h]
        rw [h1]
        omega
      · have h1 : List.countP (fun q => decide (s ≤ q ∧ q < s + d)) [T] = 0 := by
          simp only [List.countP_cons, List.countP_nil, decide_eq_true_eq]
          rw [if_neg h]
        rw [h1]
        omega

/-- Source-id count in the `_gen_edges` output: node `n` appears as the
source of exactly `degrees[n]` generated pairs. -/
theorem genEdges_count {firstNodes degrees secondNodes : List ℕ}
    {existing : List (List ℕ)} {idx : ℕ} {multigraph : Bool}
    {mkStream : ℤ → ℕ → ℕ} {msd : ℤ} {omp : ℕ} {order : List ℕ}
    {fuel : ℕ} {out : List ℕ} {n : ℕ}
    (hidx : idx ≤ 1) (homp : 1 ≤ omp)
    (horder : order.Perm (List.range omp))
    (hok : genEdges firstNodes degrees secondNodes existing idx multigraph
      mkStream msd omp order fuel = some out)
    (hn : n < firstNodes.length) :
    (pairsOfFlat idx out).countP (fun e => decide (e.1 = n)) =
      degrees.getD n 0 := by
  have hlen : out.length = 2 * (degrees.take firstNodes.length).sum := by
    rcases genEdges_eq hok with ⟨_, hout⟩
    rw [hout]
    simp
  rw [pairsOfFlat, hlen, Nat.mul_div_cancel_left _ (by omega : 0 < 2),
    List.countP_map]
  have hcongr : ∀ q ∈ List.range (degrees.take firstNodes.length).sum,
      ((fun e : ℕ × ℕ => decide (e.1 = n)) ∘
        (fun q => (out.getD (2 * q + idx) 0, out.getD (2 * q + 1 - idx) 0)))
          q = true ↔
      (fun q => decide (degStart degrees n ≤ q ∧
        q < degStart degrees n + degrees.getD n 0)) q = true := by
    intro q hq
    rw [List.mem_range] at hq
    simp only [Function.comp_apply, decide_eq_true_eq]
    rcases owner_exists degrees firstNodes.length q hq with ⟨n₀, hn₀, h1, h2⟩
    have hval := genEdges_value hidx homp horder hok q n₀ h1 h2 hn₀
    constructor
    · intro heq
      have : n₀ = n := by rw [← hval, heq]
      subst this
      exact ⟨h1, h2⟩
    · rintro ⟨h3, h4⟩
      have : n = n₀ := owner_unique degrees h3 h4 h1 h2
      subst this
      exact hval
  rw [List.countP_congr hcongr, countP_range]
  have hub : degStart degrees n + degrees.getD n 0 ≤
      (degrees.take firstNodes.length).sum := by
    have h1 : degStart degrees n + degrees.getD n 0 =
        degStart degrees (n + 1) := (degStart_succ degrees n).symm
    have h2 : degStart degrees (n + 1) ≤
        degStart degrees firstNodes.length := degStart_mono degrees (by omega)
    have h3 : degStart degrees firstNodes.length =
        (degrees.take firstNodes.length).sum := rfl
    omega
  omega

/-- C1 (amended): for a source node whose seeding loop seeds no
pre-existing target — in particular whenever the existing-edge
structure is empty — the sampler returns exactly `degrees[n]` partner
ids, none equal to the source and pairwise distinct in simple-graph
mode, and the driver writes exactly `degrees[n]` generated edges with
source `n`, so generated plus (zero) seeded pre-existing outgoing
edges equal `degrees[n]`.  (When the seeding loop does seed edges from
`n`, the code generates `degrees[n]` additional partners instead of
counting them toward the quota — `target_degree = ecurrent + degree` —
and the loop inspects only the first `existing_edges[0].size()`
entries of the edge list; see the counterexample.) -/
theorem claim_C1 :
    (∀ (g : Rng) (nodes : List ℕ) (otherEnd degree : ℕ)
       (existing : List (List ℕ)) (multigraph : Bool) (fuel : ℕ)
       (res : List ℕ) (g' : Rng),
       seedTargets existing otherEnd = some [] →
       genEdgeComplement g nodes otherEnd degree existing multigraph fuel =
         some (res, g') →
       res.length = degree ∧ (∀ t ∈ res, t ≠ otherEnd) ∧
       (multigraph = false → res.Nodup)) ∧
    (∀ (firstNodes degrees secondNodes : List ℕ)
       (existing : List (List ℕ)) (idx : ℕ) (multigraph : Bool)
       (mkStream : ℤ → ℕ → ℕ) (msd : ℤ) (omp : ℕ) (order : List ℕ)
       (fuel : ℕ) (out : List ℕ) (n : ℕ) (pre : List ℕ),
       idx ≤ 1 → 1 ≤ omp → order.Perm (List.range omp) →
       genEdges firstNodes degrees secondNodes existing idx multigraph
         mkStream msd omp order fuel = some out →
       n < firstNodes.length →
       seedTargets existing n = some pre → pre = [] →
       (pairsOfFlat idx out).countP (fun e => decide (e.1 = n)) +
         pre.length = degrees.getD n 0) := by
  constructor
  · intro g nodes otherEnd degree existing multigraph fuel res g' hpre hok
    exact genEdgeComplement_spec hpre hok
  · intro firstNodes degrees secondNodes existing idx multigraph mkStream
      msd omp order fuel out n pre hidx homp horder hok hn hpre hnil
    subst hnil
    simp only [List.length_nil, Nat.add_zero]
    exact genEdges_count hidx homp horder hok hn

/-- Counterexample to C1 as stated: with pre-existing edges
`(0, 1), (0, 2)` (sources `[0, 0]`, targets `[1, 2]`) and
`degrees = [1]`, the driver still generates one new edge with source
`0`, so generated (1) plus pre-existing (2) outgoing edges is
`3 ≠ degrees[0] = 1` — pre-existing edges are not counted toward the
quota. -/
theorem claim_C1_counterexample :
    genEdges [0] [1] [0, 1, 2] [[0, 0], [1, 2]] 0 true
        (fun s p => s.toNat + p) 5 1 [0] 20 = some [0, 1] ∧
    ¬ ((pairsOfFlat 0 [0, 1]).countP (fun e => decide (e.1 = 0)) +
       (([[0, 0], [1, 2]] : List (List ℕ)).getD 0 []).countP
         (fun s => decide (s = 0)) =
       ([1] : List ℕ).getD 0 0) := by
  constructor
  · decide
  · decide

/-- Witness for C1 (amended): the sampler half at a concrete simple
run, the driver half at a concrete one-worker run, both with an empty
existing-edge structure (nothing seeded). -/
theorem claim_C1_witness :
    (([1, 2] : List ℕ).length = 2 ∧ (∀ t ∈ ([1, 2] : List ℕ), t ≠ 0) ∧
      (false = false → ([1, 2] : List ℕ).Nodup)) ∧
    (pairsOfFlat 0 [0, 1, 1, 2, 2, 0]).countP (fun e => decide (e.1 = 0)) +
      ([] : List ℕ).length = ([1, 1, 1] : List ℕ).getD 0 0 := by
  constructor
  · exact claim_C1.1 ⟨fun p => p, 0⟩ [0, 1, 2] 0 2 [] false 10 [1, 2]
      ⟨fun p => p, 3⟩ (by decide) rfl
  · exact claim_C1.2 [0, 1, 2] [1, 1, 1] [0, 1, 2] [] 0 false
      (fun s p => s.toNat + p) 5 1 [0] 20 [0, 1, 1, 2, 2, 0] 0 []
      (by decide) (by decide) (by decide) (by decide) (by decide)
      (by decide) rfl

/-!
## Determinism / schedule independence
-/

theorem applyEvents_comm {l₁ l₂ : List (ℕ × ℕ)}
    (hdisj : ∀ p, p ∈ l₁.map Prod.fst → p ∈ l₂.map Prod.fst → False)
    (b : ℕ → ℕ) :
    applyEvents (applyEvents b l₁) l₂ = applyEvents (applyEvents b l₂) l₁ := by
  funext p
  by_cases h1 : p ∈ l₁.map Prod.fst <;> by_cases h2 : p ∈ l₂.map Prod.fst
  · exact absurd h2 (fun h => hdisj p h1 h)
  · rw [applyEvents_frame h2, applyEvents_of_mem_keys h1]
  · rw [applyEvents_of_mem_keys h2, applyEvents_frame h1]
  · rw [applyEvents_frame h2, applyEvents_frame h1,
      applyEvents_frame h1, applyEvents_frame h2]

theorem workerEvents_key_range {secondNodes degrees : List ℕ}
    {existing : List (List ℕ)} {idx : ℕ} {multigraph : Bool}
    {mkStream : ℤ → ℕ → ℕ} {msd : ℤ} {omp numNodes fuel w : ℕ}
    {E : List (ℕ × ℕ)} {p : ℕ} (hidx : idx ≤ 1)
    (hE : workerEvents secondNodes degrees existing idx multigraph mkStream
      msd omp numNodes fuel w = some E)
    (hp : p ∈ E.map Prod.fst) :
    ∃ n, n ∈ chunkNodes omp numNodes w ∧ degStart degrees n ≤ p / 2 ∧
      p / 2 < degStart degrees n + degrees.getD n 0 := by
  rcases workerEvents_eq hE with ⟨rs, g', hrn, hEeq⟩
  rcases List.mem_map.mp hp with ⟨e, he, hkey⟩
  rw [hEeq, List.mem_flatMap] at he
  rcases he with ⟨nr, hnr, hbe⟩
  have hchunk : nr.1 ∈ chunkNodes omp numNodes w := (runNodes_nodes hrn).1 nr hnr
  have hbe' : (p, e.2) ∈ blockEvents idx degrees nr.1 nr.2 := by
    have he : e = (p, e.2) := by
      rw [← hkey]
    rw [← he]
    exact hbe
  rw [blockEvents_mem] at hbe'
  rcases hbe' with ⟨j, hj, hcase | hcase⟩
  · exact ⟨nr.1, hchunk, by omega, by omega⟩
  · exact ⟨nr.1, hchunk, by omega, by omega⟩

theorem workerEvents_disjoint {secondNodes degrees : List ℕ}
    {existing : List (List ℕ)} {idx : ℕ} {multigraph : Bool}
    {mkStream : ℤ → ℕ → ℕ} {msd : ℤ} {omp numNodes fuel : ℕ}
    {w w' : ℕ} {E E' : List (ℕ × ℕ)} (hidx : idx ≤ 1)
    (hw : w < omp) (hw' : w' < omp) (hne : w ≠ w')
    (hE : workerEvents secondNodes degrees existing idx multigraph mkStream
      msd omp numNodes fuel w = some E)
    (hE' : workerEvents secondNodes degrees existing idx multigraph mkStream
      msd omp numNodes fuel w' = some E') :
    ∀ p, p ∈ E.map Prod.fst → p ∈ E'.map Prod.fst → False := by
  intro p hp hp'
  rcases workerEvents_key_range hidx hE hp with ⟨n, hn, h1, h2⟩
  rcases workerEvents_key_range hidx hE' hp' with ⟨n', hn', h3, h4⟩
  have heq : n = n' := owner_unique degrees h1 h2 h3 h4
  subst heq
  exact hne (chunk_unique hw hw' hn hn')

/-- C4 (amended): every defined run of the degree-model driver
(one that returns, with every worker terminating) yields byte-identical
output under any scheduling of its workers (their write regions are
disjoint), and the distance-rule generator is deterministic for a
single worker.  With several workers the distance-rule output
additionally depends on the order in which workers pass the final
`omp critical` merge, which is OS scheduling, not an input; see the
counterexample. -/
theorem claim_C4 :
    (∀ (firstNodes degrees secondNodes : List ℕ)
       (existing : List (List ℕ)) (idx : ℕ) (multigraph : Bool)
       (mkStream : ℤ → ℕ → ℕ) (msd : ℤ) (omp : ℕ)
       (order₁ order₂ : List ℕ) (fuel : ℕ) (out : List ℕ), idx ≤ 1 →
       order₁.Perm (List.range omp) → order₂.Perm (List.range omp) →
       genEdges firstNodes degrees secondNodes existing idx multigraph
         mkStream msd omp order₁ fuel = some out →
       genEdges firstNodes degrees secondNodes existing idx multigraph
         mkStream msd omp order₂ fuel = some out) ∧
    (∀ (sourceNodes : List ℕ) (targetNodes : List (List ℕ))
       (pAccept : ℕ → ℕ → ℕ → Bool) (numEdges : ℕ)
       (existing : List (ℕ × ℕ)) (multigraph : Bool)
       (mkStream : ℤ → ℕ → ℕ) (msd : ℤ) (arrival₁ arrival₂ : List ℕ)
       (fuel : ℕ),
       arrival₁.Perm (List.range 1) → arrival₂.Perm (List.range 1) →
       cdistanceRule sourceNodes targetNodes pAccept numEdges existing
         multigraph mkStream msd 1 arrival₁ fuel =
       cdistanceRule sourceNodes targetNodes pAccept numEdges existing
         multigraph mkStream msd 1 arrival₂ fuel) := by
  constructor
  · intro firstNodes degrees secondNodes existing idx multigraph mkStream
      msd omp order₁ order₂ fuel out hidx horder₁ horder₂ hok
    rw [← hok]
    rw [genEdges, genEdges]
    split
    · next hall =>
        rw [List.all_eq_true] at hall
        have hperm : order₁.Perm order₂ := horder₁.trans horder₂.symm
        have hfold : order₁.foldl (fun b w => applyEvents b
            ((workerEvents secondNodes degrees existing idx multigraph
              mkStream msd omp firstNodes.length fuel w).getD []))
            (fun _ => 0) =
          order₂.foldl (fun b w => applyEvents b
            ((workerEvents secondNodes degrees existing idx multigraph
              mkStream msd omp firstNodes.length fuel w).getD []))
            (fun _ => 0) := by
          apply hperm.foldl_eq'
          intro x hx y hy z
          by_cases hxy : x = y
          · rw [hxy]
          · have hxo : x < omp := by
              have := horder₁.mem_iff.mp hx
              rw [List.mem_range] at this
              exact this
            have hyo : y < omp := by
              have := horder₁.mem_iff.mp hy
              rw [List.mem_range] at this
              exact this
            rcases Option.isSome_iff_exists.mp
              (hall x (List.mem_range.mpr hxo)) with ⟨Ex, hEx⟩
            rcases Option.isSome_iff_exists.mp
              (hall y (List.mem_range.mpr hyo)) with ⟨Ey, hEy⟩
            rw [hEx, hEy, Option.getD_some, Option.getD_some]
            exact (applyEvents_comm
              (workerEvents_disjoint hidx hyo hxo (Ne.symm hxy) hEy hEx)
              z).symm
        rw [hfold]
    · rfl
  · intro sourceNodes targetNodes pAccept numEdges existing multigraph
      mkStream msd arrival₁ arrival₂ fuel h₁ h₂
    have e₁ : arrival₁ = [0] := by
      have : arrival₁.Perm [0] := by
        have : List.range 1 = [0] := rfl
        rw [← this]
        exact h₁
      exact List.perm_singleton.mp this
    have e₂ : arrival₂ = [0] := by
      have : arrival₂.Perm [0] := by
        have : List.range 1 = [0] := rfl
        rw [← this]
        exact h₂
      exact List.perm_singleton.mp this
    rw [e₁, e₂]

/-- Counterexample to C4 as stated: a two-worker distance-rule run with
identical inputs, seed and worker count produces different byte output
under the two possible critical-section arrival orders. -/
theorem claim_C4_counterexample :
    cdistanceRule [0, 1] [[1], [0]] (fun _ _ _ => true) 2 [] true
        (fun _ _ => 0) 0 2 [0, 1] 10 ≠
      cdistanceRule [0, 1] [[1], [0]] (fun _ _ _ => true) 2 [] true
        (fun _ _ => 0) 0 2 [1, 0] 10 ∧
    ([0, 1] : List ℕ).Perm (List.range 2) ∧
    ([1, 0] : List ℕ).Perm (List.range 2) := by
  refine ⟨by decide, by decide, by decide⟩

/-- Witness for C4 (amended): schedule independence of a concrete
defined two-worker `_gen_edges` run, and single-worker distance-rule
determinism at a concrete input. -/
theorem claim_C4_witness :
    genEdges [0, 1, 2] [1, 1, 1] [0, 1, 2] [] 0 false
        (fun s p => s.toNat + p) 5 2 [1, 0] 20 =
      some [0, 1, 1, 2, 2, 1] ∧
    cdistanceRule [0, 1] [[1], [0]] (fun _ _ _ => true) 2 [] true
        (fun _ _ => 0) 0 1 [0] 10 =
      cdistanceRule [0, 1] [[1], [0]] (fun _ _ _ => true) 2 [] true
        (fun _ _ => 0) 0 1 [0] 10 :=
  ⟨claim_C4.1 [0, 1, 2] [1, 1, 1] [0, 1, 2] [] 0 false
      (fun s p => s.toNat + p) 5 2 [0, 1] [1, 0] 20 [0, 1, 1, 2, 2, 1]
      (by decide) (by decide) (by decide) (by decide),
   claim_C4.2 [0, 1] [[1], [0]] (fun _ _ _ => true) 2 [] true
      (fun _ _ => 0) 0 [0] [0] 10 (by decide) (by decide)⟩

end FuncConnect
